/-
  Verification of the VoltDB per-site query execution core against its
  natural-language specification.

  The development shallowly embeds the four source files

    src/ee/executors/windowfunctionexecutor.cpp
    src/ee/executors/projectionexecutor.cpp
    src/ee/executors/swaptablesexecutor.cpp
    src/ee/common/executorcontext.cpp

  into Lean.  Tables become lists of rows, NValues become `Int`
  (nullable values become `Option Int`), table iterators become list
  suffixes, and the per-executor memory pool and tuple addresses are
  tracked abstractly where a claim is about them.  Collaborator methods
  that live outside the four files (e.g. `AbstractDRTupleStream`
  methods, `ExpressionUtil` helpers) are modelled from the spec and
  marked as such in their doc comments.
-/
import Mathlib

set_option linter.unusedVariables false
set_option linter.unusedSectionVars false
set_option linter.unnecessarySeqFocus false
set_option linter.unusedTactic false

namespace VoltVerify

/-! ## Window function executor: data model

Embedding of `windowfunctionexecutor.cpp`.  A row of the input table is
an abstract type `ρ`.  The evaluated `PARTITION BY` key expression
vector of a row is modelled as a single value of type `K₁` (the code
compares key tuples column by column and only ever uses "equal /
not equal" during the scan, and the whole key vector is lexicographically
ordered, so a single abstract key value is a faithful image of the key
tuple), and likewise the `ORDER BY` key is a value of type `K₂`. -/

/-- Edge kinds returned by `WindowFunctionExecutor::findNextEdge`
(`EdgeType` in the C++ header).  `InvalidEdgeType` is only ever used to
initialize the `nextEtype` loop variable and is never returned. -/
inductive EdgeType where
  | InvalidEdgeType
  | StartOfInput
  | StartOfPartitionByGroup
  | StartOfOrderByGroup
  | EndOfInput
  deriving DecidableEq, Repr

/-- The three shipped window aggregate variants (`RankAgg`,
`DenseRankAgg`, `CountAgg`). -/
inductive AggKind where
  | rank
  | denseRank
  | count
  deriving DecidableEq, Repr

/-- Static description of one aggregate of the window function plan
node: its kind (`m_aggTypes[i]`) and the evaluated argument expressions
(`getAggregateInputExpressions()[i]`, each expression modelled as the
function taking an input row to its evaluated, possibly-null value). -/
structure AggSpec (ρ : Type) where
  kind : AggKind
  inputExprs : List (ρ → Option Int)

/-- Mutable per-aggregate state: `WindowAggregate::m_value` plus the
`m_orderByPeerIncrement` of the rank family (for `CountAgg`, which has
no such member, the second field is simply never used). -/
structure AggState where
  value : Int
  orderByPeerIncrement : Int
  deriving DecidableEq, Repr

/-- The `m_needsLookahead` flag: the base class sets `true`; the
`DenseRankAgg` constructor (inherited by `RankAgg`) resets it to
`false`; `CountAgg` leaves the base value. -/
def needsLookahead : AggKind → Bool
  | .count => true
  | _ => false

/-- Constructor values of each aggregate class.  (`CountAgg`'s `m_value`
is default-initialized and is unconditionally overwritten by the
`resetAggs` performed at `StartOfInput` before any use; we use `0`.) -/
def mkAggState : AggKind → AggState
  | .rank => ⟨1, 1⟩
  | .denseRank => ⟨1, 1⟩
  | .count => ⟨0, 0⟩

/-- `resetAgg`, dispatched over the variant.  The rank family sets both
`m_value` and `m_orderByPeerIncrement` back to 1; `CountAgg` sets
`m_value` to 0. -/
def resetAgg : AggKind → AggState → AggState
  | .rank, _ => ⟨1, 1⟩
  | .denseRank, _ => ⟨1, 1⟩
  | .count, s => { s with value := 0 }

/-- `lookaheadOneRow`.  Only `CountAgg` overrides the base no-op: it
adds one unless there is an argument and the first argument value is
null. -/
def lookaheadOneRowAgg : AggKind → AggState → List (Option Int) → AggState
  | .count, s, argVals =>
    match argVals with
    | [] => { s with value := s.value + 1 }
    | v :: _ => if v.isSome then { s with value := s.value + 1 } else s
  | .rank, s, _ => s
  | .denseRank, s, _ => s

/-- `lookaheadNextGroup`.  Only `RankAgg` overrides the base no-op: it
records the measured group size as the order-by peer increment. -/
def lookaheadNextGroupAgg : AggKind → AggState → Nat → AggState
  | .rank, s, groupSize => { s with orderByPeerIncrement := (groupSize : Int) }
  | .denseRank, s, _ => s
  | .count, s, _ => s

/-- `endGroup`.  `DenseRankAgg::endGroup` (inherited by `RankAgg`) adds
the order-by peer increment to the value; `CountAgg` keeps the base
no-op. -/
def endGroupAgg : AggKind → AggState → AggState
  | .rank, s => { s with value := s.value + s.orderByPeerIncrement }
  | .denseRank, s => { s with value := s.value + s.orderByPeerIncrement }
  | .count, s => s

/-- `finalize`: returns the current value.  (The cast to the output
column type is the identity in this integer model.) -/
def finalizeAgg (s : AggState) : Int := s.value

/-- Static configuration of one `WindowFunctionExecutor`: the evaluated
partition-by key of a row, the evaluated order-by key of a row, and the
aggregate vector. -/
structure WFConfig (ρ K₁ K₂ : Type) where
  pKey : ρ → K₁
  oKey : ρ → K₂
  aggs : List (AggSpec ρ)

section WindowExec

variable {ρ K₁ K₂ : Type} [DecidableEq K₁] [DecidableEq K₂]

/-- Evaluate the argument expressions of one aggregate on a row (the
`NValueArray vals` built by `lookaheadOneRowForAggs`). -/
def evalAggArgs (a : AggSpec ρ) (r : ρ) : List (Option Int) :=
  a.inputExprs.map (fun e => e r)

/-- The treatment one aggregate receives for one scanned row inside
`lookaheadOneRowForAggs`: if it needs lookahead, its argument
expressions are evaluated on the row and `lookaheadOneRow` is invoked;
otherwise it is left alone. -/
def lookStep (a : AggSpec ρ) (s : AggState) (r : ρ) : AggState :=
  if needsLookahead a.kind then lookaheadOneRowAgg a.kind s (evalAggArgs a r) else s

/-- `WindowFunctionExecutor::lookaheadOneRowForAggs`: for each
aggregate that needs lookahead, evaluate its argument expressions on
the row and invoke `lookaheadOneRow`. -/
def lookaheadOneRowForAggs (aggs : List (AggSpec ρ)) (states : List AggState) (r : ρ) :
    List AggState :=
  List.zipWith (fun a s => lookStep a s r) aggs states

/-- One aggregate's state at emission time for an order-by group `grp`:
the per-row lookaheads over the group followed by the group-size
lookahead. -/
def aggEmittedState (a : AggSpec ρ) (grp : List ρ) (s : AggState) : AggState :=
  lookaheadNextGroupAgg a.kind (grp.foldl (lookStep a) s) grp.length

/-- Whether row `x` carries the same partition-by key as row `b`. -/
def samePartB (cfg : WFConfig ρ K₁ K₂) (b x : ρ) : Bool :=
  decide (cfg.pKey x = cfg.pKey b)

/-- `WindowFunctionExecutor::lookaheadNextGroupForAggs`. -/
def lookaheadNextGroupForAggs (aggs : List (AggSpec ρ)) (states : List AggState)
    (groupSize : Nat) : List AggState :=
  List.zipWith (fun a s => lookaheadNextGroupAgg a.kind s groupSize) aggs states

/-- `WindowFunctionExecutor::endGroupForAggs`. -/
def endGroupForAggs (aggs : List (AggSpec ρ)) (states : List AggState) : List AggState :=
  List.zipWith (fun a s => endGroupAgg a.kind s) aggs states

/-- `WindowAggregateRow::resetAggs`. -/
def resetAggs (aggs : List (AggSpec ρ)) (states : List AggState) : List AggState :=
  List.zipWith (fun a s => resetAgg a.kind s) aggs states

/-- The aggregate values written by `insertOutputTuple` into the first
`getAggregateCount()` columns of the output tuple. -/
def finalizeAggs (states : List AggState) : List Int :=
  states.map finalizeAgg

/-- `initAggInstances`: initial aggregate objects built by the
constructors. -/
def initAggStates (aggs : List (AggSpec ρ)) : List AggState :=
  aggs.map (fun a => mkAggState a.kind)

/-- Whether a row `r` has the same partition-by key and the same
order-by key as the row `b` (the `compareTuples(...) == 0` tests of
`findNextEdge`; `compareTuples` walks the key columns and returns
nonzero exactly when the key tuples differ). -/
def isPeerOf (cfg : WFConfig ρ K₁ K₂) (b r : ρ) : Bool :=
  decide (cfg.pKey r = cfg.pKey b) && decide (cfg.oKey r = cfg.oKey b)

/-- Result of one `findNextEdge` call: the returned edge type, the
remaining rows the leading-edge iterator has not yet read, the current
contents of the buffered input tuple, `window->m_groupSize`, and the
aggregate states after the per-row lookaheads. -/
structure EdgeResult (ρ : Type) where
  etype : EdgeType
  leading : List ρ
  buffered : ρ
  groupSize : Nat
  states : List AggState
  deriving Repr

/-- The `do { ... } while (true)` scan of `findNextEdge`: `prev` is the
row whose keys are currently in the `last` key tuples (the previously
read row), `l` the rows the leading edge has not yet read.  Each new
row is compared against the previous row's keys; while they agree the
group grows and each aggregate gets a `lookaheadOneRow` crack at the
row. -/
def findNextEdgeLoop (cfg : WFConfig ρ K₁ K₂) :
    ρ → List ρ → Nat → List AggState → EdgeResult ρ
  | prev, [], groupSize, states => ⟨.EndOfInput, [], prev, groupSize, states⟩
  | prev, r :: rest, groupSize, states =>
    if cfg.pKey r ≠ cfg.pKey prev then ⟨.StartOfPartitionByGroup, rest, r, groupSize, states⟩
    else if cfg.oKey r ≠ cfg.oKey prev then ⟨.StartOfOrderByGroup, rest, r, groupSize, states⟩
    else findNextEdgeLoop cfg r rest (groupSize + 1)
      (lookaheadOneRowForAggs cfg.aggs states r)

/-- `WindowFunctionExecutor::findNextEdge`.  At `StartOfInput` the
first row primes the key tuples and sets `m_groupSize = 1` (or, when
the table is empty, the group size is 0 and `EndOfInput` is returned at
once).  On subsequent calls the buffered input tuple already holds a
row read by the previous call's break condition, so it is counted and
looked at first. -/
def findNextEdge (cfg : WFConfig ρ K₁ K₂) (edgeType : EdgeType) (leading : List ρ)
    (buffered : ρ) (states : List AggState) : EdgeResult ρ :=
  if edgeType = .StartOfInput then
    match leading with
    | [] => ⟨.EndOfInput, [], buffered, 0, states⟩
    | r :: rest => findNextEdgeLoop cfg r rest 1 (lookaheadOneRowForAggs cfg.aggs states r)
  else
    findNextEdgeLoop cfg buffered leading 1 (lookaheadOneRowForAggs cfg.aggs states buffered)

/-- Mutable state of one `p_execute` run: the two cursors of the
`TableWindow` (as the unread suffixes of the input), the buffered input
tuple, `m_groupSize`, the aggregate states, the rows inserted into the
temp output table so far (each output row records the pass-through
input row together with the finalized aggregate column values), and the
trace of group sizes measured at the edges visited so far. -/
structure ExecState (ρ : Type) where
  middle : List ρ
  leading : List ρ
  buffered : ρ
  groupSize : Nat
  states : List AggState
  output : List (ρ × List Int)
  groupSizes : List Nat

/-- Output rows emitted for one order-by group: the middle edge reads
`m_groupSize` rows; for each, `insertOutputTuple` finalizes every
aggregate into the leading output columns and keeps the row itself as
the pass-through tuple. -/
def emitRows (states : List AggState) (rows : List ρ) : List (ρ × List Int) :=
  rows.map (fun r => (r, finalizeAggs states))

/-- One iteration of the main loop of
`WindowFunctionExecutor::p_execute`: reset the aggregates if this is
the start of the input or of a partition-by group, find the next edge
(giving the aggregates a crack at each scanned row), tell the
aggregates the lookahead result, emit one output row per row of the
current group at the middle edge, and end the group.  Returns the next
edge type together with the new state. -/
def execStep (cfg : WFConfig ρ K₁ K₂) (etype : EdgeType) (st : ExecState ρ) :
    EdgeType × ExecState ρ :=
  let states0 := if etype = .StartOfInput ∨ etype = .StartOfPartitionByGroup
    then resetAggs cfg.aggs st.states else st.states
  let er := findNextEdge cfg etype st.leading st.buffered states0
  let states1 := lookaheadNextGroupForAggs cfg.aggs er.states er.groupSize
  (er.etype,
    { middle := st.middle.drop er.groupSize
      leading := er.leading
      buffered := er.buffered
      groupSize := er.groupSize
      states := endGroupForAggs cfg.aggs states1
      output := st.output ++ emitRows states1 (st.middle.take er.groupSize)
      groupSizes := st.groupSizes ++ [er.groupSize] })

/-- The main loop of `WindowFunctionExecutor::p_execute`, with an
explicit fuel argument for termination (the fuel supplied by
`pExecuteModel` is always sufficient: every iteration that continues
consumes at least one input row at the leading edge). -/
def pExecuteLoop (cfg : WFConfig ρ K₁ K₂) : Nat → EdgeType → ExecState ρ → ExecState ρ
  | 0, _, st => st
  | Nat.succ fuel, etype, st =>
    if etype = .EndOfInput then st
    else
      let next := execStep cfg etype st
      pExecuteLoop cfg fuel next.1 next.2

/-- State at the top of `p_execute`: both `TableWindow` iterators are
fresh iterators over the input table, the buffered input tuple holds no
meaningful row yet (freshly allocated storage), and the aggregates have
just been constructed by `initAggInstances`. -/
def initialExecState (cfg : WFConfig ρ K₁ K₂) (rows : List ρ) (junk : ρ) : ExecState ρ :=
  ⟨rows, rows, junk, 0, initAggStates cfg.aggs, [], []⟩

/-- `WindowFunctionExecutor::p_execute` on an input table.  The
returned boolean is the function's return value (`true` on normal
completion). -/
def pExecuteModel (cfg : WFConfig ρ K₁ K₂) [Inhabited ρ] (rows : List ρ) :
    Bool × ExecState ρ :=
  (true, pExecuteLoop cfg (rows.length + 1) .StartOfInput (initialExecState cfg rows default))

/-- The rows of the temp output table produced by one `p_execute` run:
in order, each output row is the pass-through input row paired with the
finalized aggregate column values. -/
def pExecuteOutput (cfg : WFConfig ρ K₁ K₂) [Inhabited ρ] (rows : List ρ) :
    List (ρ × List Int) :=
  (pExecuteModel cfg rows).2.output

end WindowExec

/-! ## Window function executor: specification-side definitions

The formulas of spec §8 items 4–6 ("Rank round-trip", "Count
semantics", "Group accounting"), written exactly as the claims state
them, plus the amended formulas that the code actually satisfies. -/

section WindowSpec

variable {ρ K₁ K₂ : Type}

/-- The input table is "sorted by (partition-by key, order-by key)":
each earlier row is lexicographically at most each later row. -/
def lexLE (cfg : WFConfig ρ K₁ K₂) [LinearOrder K₁] [LinearOrder K₂] (x y : ρ) : Prop :=
  cfg.pKey x < cfg.pKey y ∨ (cfg.pKey x = cfg.pKey y ∧ cfg.oKey x ≤ cfg.oKey y)

instance lexLEDecidable (cfg : WFConfig ρ K₁ K₂) [LinearOrder K₁] [LinearOrder K₂] :
    DecidableRel (lexLE cfg) := fun x y => by
  unfold lexLE; infer_instance

/-- Sortedness of the input table by (partition-by key, order-by key). -/
def sortedInput (cfg : WFConfig ρ K₁ K₂) [LinearOrder K₁] [LinearOrder K₂]
    (rows : List ρ) : Prop :=
  List.Sorted (lexLE cfg) rows

instance sortedInputDecidable (cfg : WFConfig ρ K₁ K₂) [LinearOrder K₁] [LinearOrder K₂]
    (rows : List ρ) : Decidable (sortedInput cfg rows) := by
  unfold sortedInput List.Sorted
  infer_instance

variable [LinearOrder K₁] [LinearOrder K₂]

/-- The claimed `RANK` value of a row `r` whose predecessors in the
input are `pre`: 1 plus the number of preceding rows in the same
partition-by group whose order-by key is strictly smaller. -/
def rankClaimedValue (cfg : WFConfig ρ K₁ K₂) (pre : List ρ) (r : ρ) : Int :=
  1 + ((pre.filter (fun x =>
    decide (cfg.pKey x = cfg.pKey r) && decide (cfg.oKey x < cfg.oKey r))).length : Int)

/-- The `DENSE_RANK` value as literally claimed: 1 plus the number of
distinct order-by keys occurring before the row in the same
partition-by group. -/
def denseRankClaimedValue (cfg : WFConfig ρ K₁ K₂) (pre : List ρ) (r : ρ) : Int :=
  1 + (((pre.filter (fun x => decide (cfg.pKey x = cfg.pKey r))).map cfg.oKey).toFinset.card : Int)

/-- The `DENSE_RANK` value the code computes: 1 plus the number of
distinct order-by keys occurring before the row in the same
partition-by group that are strictly smaller than the row's own
order-by key. -/
def denseRankAmendedValue (cfg : WFConfig ρ K₁ K₂) (pre : List ρ) (r : ρ) : Int :=
  1 + (((pre.filter (fun x =>
    decide (cfg.pKey x = cfg.pKey r) && decide (cfg.oKey x < cfg.oKey r))).map
      cfg.oKey).toFinset.card : Int)

/-- Whether `CountAgg` counts a row: `COUNT(*)` (no argument) counts
every row; `COUNT(E)` counts the row when the first argument value is
non-null. -/
def countsRow (a : AggSpec ρ) (r : ρ) : Bool :=
  match a.inputExprs with
  | [] => true
  | e :: _ => (e r).isSome

/-- The `COUNT` value as literally claimed: the number of counted rows
in the row's whole partition-by group. -/
def countClaimedValue (cfg : WFConfig ρ K₁ K₂) (a : AggSpec ρ) (full : List ρ) (r : ρ) : Int :=
  ((full.filter (fun x => decide (cfg.pKey x = cfg.pKey r) && countsRow a x)).length : Int)

/-- The `COUNT` value the code computes: the number of counted rows in
the row's partition whose order-by key is at most the row's own
order-by key (i.e. the partition's rows from its start through the end
of the row's order-by peer group). -/
def countAmendedValue (cfg : WFConfig ρ K₁ K₂) (a : AggSpec ρ) (full : List ρ) (r : ρ) : Int :=
  ((full.filter (fun x =>
    decide (cfg.pKey x = cfg.pKey r) && decide (cfg.oKey x ≤ cfg.oKey r)
      && countsRow a x)).length : Int)

/-- The value the executor emits for aggregate `a` at a row `r`, as a
function of the full input `full` and the rows `pre` preceding `r`. -/
def aggAmendedValue (cfg : WFConfig ρ K₁ K₂) (a : AggSpec ρ) (full pre : List ρ) (r : ρ) : Int :=
  match a.kind with
  | .rank => rankClaimedValue cfg pre r
  | .denseRank => denseRankAmendedValue cfg pre r
  | .count => countAmendedValue cfg a full r

/-- The expected output table: row `i` of the suffix is paired with the
expected aggregate values computed from the rows preceding it. -/
def specOutput (cfg : WFConfig ρ K₁ K₂) (full : List ρ) :
    List ρ → List ρ → List (ρ × List Int)
  | _, [] => []
  | pre, r :: suffix =>
    (r, cfg.aggs.map (fun a => aggAmendedValue cfg a full pre r)) ::
      specOutput cfg full (pre ++ [r]) suffix

/-- Invariant tying one aggregate's state to the list `Q` of
already-processed rows of the current partition (at a moment when a new
order-by peer group is about to start). -/
def aggInv (cfg : WFConfig ρ K₁ K₂) [DecidableEq K₂] (a : AggSpec ρ) (Q : List ρ)
    (s : AggState) : Prop :=
  match a.kind with
  | .rank => s.value = 1 + (Q.length : Int)
  | .denseRank =>
    s.value = 1 + ((Q.map cfg.oKey).toFinset.card : Int) ∧ s.orderByPeerIncrement = 1
  | .count => s.value = ((Q.filter (countsRow a)).length : Int)

/-- `aggInv` for each aggregate of the vector, in lockstep. -/
def invList (cfg : WFConfig ρ K₁ K₂) [DecidableEq K₂] (Q : List ρ) :
    List (AggSpec ρ) → List AggState → Prop
  | [], [] => True
  | a :: aggs, s :: states => aggInv cfg a Q s ∧ invList cfg Q aggs states
  | _, _ => False

end WindowSpec

/-! ## Window function executor: scratch tuple and pool lifecycle

Embedding of the parts of `p_execute` that manage the four scratch key
tuples, the buffered input tuple and the executor memory pool
(`initWorkingTupleStorage`, `p_execute_finish`).  A tuple is tracked by
whether its data address is non-null, the pool by whether it has been
purged since the working storage was allocated from it. -/

/-- Addresses of the four scratch key tuples and the buffered input
tuple (`true` = non-null), plus whether the executor memory pool is
currently purged. -/
structure ScratchState where
  inProgressPartitionByKey : Bool
  lastPartitionByKey : Bool
  inProgressOrderByKey : Bool
  lastOrderByKey : Bool
  bufferedInput : Bool
  poolPurged : Bool
  deriving DecidableEq, Repr

/-- `WindowFunctionExecutor::initWorkingTupleStorage`: allocates active
tuples for all five pieces of working storage out of the memory pool. -/
def initWorkingTupleStorage (_s : ScratchState) : ScratchState :=
  ⟨true, true, true, true, true, false⟩

/-- `WindowFunctionExecutor::p_execute_finish`: moves all five working
tuples to the null address, then purges the memory pool. -/
def pExecuteFinish (_s : ScratchState) : ScratchState :=
  ⟨false, false, false, false, false, true⟩

/-- The aggregate type codes carried by the plan node
(`m_aggTypes`): the three implemented windowed aggregate expression
types, or any other expression-type code. -/
inductive PlanAggType where
  | windowedRank
  | windowedDenseRank
  | windowedCount
  | other (code : Int)
  deriving DecidableEq, Repr

/-- `getWindowedAggInstance`: constructs the aggregate for a supported
type and throws a `SerializableEEException` for any other. -/
def getWindowedAggInstance : PlanAggType → Except String AggKind
  | .windowedRank => .ok .rank
  | .windowedDenseRank => .ok .denseRank
  | .windowedCount => .ok .count
  | .other _ => .error "Unknown aggregate type"

/-- `initAggInstances`: builds one aggregate per plan aggregate type;
the first unsupported type aborts the whole call with the exception. -/
def initAggInstancesE (aggTypes : List PlanAggType) : Except String (List AggKind) :=
  aggTypes.mapM getWindowedAggInstance

/-- The scratch-storage lifecycle of one `p_execute` call.  The call
first runs `initWorkingTupleStorage`, then builds the aggregates
(`initAggInstances` throws on an unknown aggregate type — after the
working storage has already been allocated); on any such exception the
call propagates it immediately: `p_execute_finish` is only reached on
the normal return path.  `Except.error` carries the scratch state the
exception leaves behind; `Except.ok` carries the returned boolean and
the scratch state after `p_execute_finish`. -/
def pExecuteScratch (aggTypes : List PlanAggType) (s : ScratchState) :
    Except (String × ScratchState) (Bool × ScratchState) :=
  let s1 := initWorkingTupleStorage s
  match initAggInstancesE aggTypes with
  | .error msg => .error (msg, s1)
  | .ok _ => .ok (true, pExecuteFinish s1)

/-! ## Executor context: dispatcher (`executeExecutors`) -/

/-- Which `EngineLocals` are currently bound to the site's thread:
its own, or the designated multi-partition locals (`mpEngineLocals`). -/
inductive Binding where
  | own
  | mp
  deriving DecidableEq, Repr

/-- One executor of the list, as the dispatcher sees it: whether its
plan node is an INSERT targeting a replicated persistent table, whether
this site's latch decrement makes it the driver
(`VoltDBEngine::countDownGlobalTxnStartCount()` returning true),
whether its `execute` returns true, the memory pools of its inline
child nodes (`true` = not yet cleaned), and its temp output table
(`true` = not yet released). -/
structure ExecUnit where
  isReplicatedTableInsert : Bool
  becomesDriver : Bool
  execOk : Bool
  inlinePools : List Bool
  tempTableLive : Bool
  deriving DecidableEq, Repr

/-- The site-visible dispatcher state: the shared countdown latch
(`globalTxnStartCountdownLatch`, as written by this site),
`SITES_PER_HOST`, the thread-local binding, and the number of
`signalLastSiteFinished` calls made. -/
structure DispatchState where
  latch : Int
  sitesPerHost : Int
  binding : Binding
  signalCount : Nat
  deriving DecidableEq, Repr

/-- The try-block of `ExecutorContext::executeExecutors`: run each
executor in list order.  A replicated-table insert first decrements the
shared latch; the driver rebinds to `mpEngineLocals`, executes, and on
success resets the latch to `SITES_PER_HOST`, rebinds its own locals
and signals; a waiter blocks on the signal and proceeds without
executing.  A failed `execute` throws; the error value carries the
state at the throw and whether the thrower still held the driver lock
(`needsReleaseLock`).  (The single-site model executes the current
executor where the C++ driver executes the `mpExecutor` published by
the multi-partition site — the same plan node's executor.) -/
def runList (st : DispatchState) : List ExecUnit → Except (DispatchState × Bool) DispatchState
  | [] => .ok st
  | u :: rest =>
    if u.isReplicatedTableInsert then
      let st1 : DispatchState := { st with latch := st.latch - 1 }
      if u.becomesDriver then
        let st2 : DispatchState := { st1 with binding := .mp }
        if u.execOk then
          runList { st2 with latch := st.sitesPerHost, binding := .own,
                             signalCount := st2.signalCount + 1 } rest
        else .error (st2, true)
      else runList st1 rest
    else
      if u.execOk then runList st rest
      else .error (st, false)

/-- `cleanupAllExecutors` as it acts on the executor list: release
every executor's temp output table. -/
def cleanupAllExecutorsM (units : List ExecUnit) : List ExecUnit :=
  units.map (fun u => { u with tempTableLive := false })

/-- The catch-block loop over the list that cleans the memory pool of
every inline child node's executor. -/
def cleanupInlinePools (units : List ExecUnit) : List ExecUnit :=
  units.map (fun u => { u with inlinePools := u.inlinePools.map (fun _ => false) })

/-- `ExecutorContext::executeExecutors(executorList, subqueryId)`.  On
success it returns the final dispatcher state, the (unchanged) units,
and the output table of `executorList[ttl-1]` — an unguarded index that
falls outside the list when the list is empty (modelled by the partial
lookup returning `none`).  On failure the catch block releases the
driver lock if held (latch back to `SITES_PER_HOST`, own locals
rebound, completion signalled), releases every executor's temp output
table, cleans every inline child's memory pool, and rethrows. -/
def executeExecutorsModel (st : DispatchState) (units : List ExecUnit) :
    Except (DispatchState × List ExecUnit) (DispatchState × List ExecUnit × Option ExecUnit) :=
  match runList st units with
  | .ok st' => .ok (st', units, units.get? (units.length - 1))
  | .error (st', needsReleaseLock) =>
    let st'' := if needsReleaseLock
      then { st' with latch := st'.sitesPerHost, binding := .own,
                      signalCount := st'.signalCount + 1 }
      else st'
    .error (st'', cleanupInlinePools (cleanupAllExecutorsM units))

/-! ## Executor context: DR stream rotation -/

/-- The fields of `AbstractDRTupleStream` that the rotation reads and
writes. -/
structure DRStream where
  committedSequenceNumber : Int
  openSpHandle : Int
  deriving DecidableEq, Repr

/-- Modelled from the spec: `AbstractDRTupleStream::
setLastCommittedSequenceNumber(n)` (declared outside the four source
files) records `n` as the stream's committed sequence number. -/
def setLastCommittedSequenceNumber (s : DRStream) (n : Int) : DRStream :=
  { s with committedSequenceNumber := n }

/-- The DR-relevant state of an `ExecutorContext`, together with the
trace of `periodicFlush` requests issued so far.  A flush request
records the stream it was sent to and the two sp-handle arguments.
(`AbstractDRTupleStream::periodicFlush` itself is outside the four
source files; modelled from the spec as an abstract effect, recorded as
an event.) -/
structure DrCtxState where
  drStream : DRStream
  lastCommittedSpHandle : Int
  flushes : List (DRStream × Int × Int)
  deriving DecidableEq, Repr

/-- `ExecutorContext::setDrStream` (and, identically,
`setDrReplicatedStream` for the replicated stream slot): flush the old
stream up to `max(m_lastCommittedSpHandle, new.m_openSpHandle)`, then
install the new stream and give it the old stream's committed sequence
number.  The C++ asserts
`old.m_committedSequenceNumber >= new.m_committedSequenceNumber`
on entry; that precondition is a hypothesis of the theorems. -/
def setDrStream (ctx : DrCtxState) (newStream : DRStream) : DrCtxState :=
  let lastCommittedSpHandle := max ctx.lastCommittedSpHandle newStream.openSpHandle
  let oldSeqNum := ctx.drStream.committedSequenceNumber
  { drStream := setLastCommittedSequenceNumber newStream oldSeqNum
    lastCommittedSpHandle := ctx.lastCommittedSpHandle
    flushes := ctx.flushes ++ [(ctx.drStream, -1, lastCommittedSpHandle)] }

/-! ## Swap-tables executor -/

/-- A persistent table as the swap sees it: the visible tuple count and
an identifier standing for the table body (storage, indexes and
materialized-view bindings as one unit). -/
structure PersistentTableM where
  visibleTupleCount : Int
  storageId : Nat
  deriving DecidableEq, Repr

/-- Modelled from the spec: `PersistentTable::swapTable(other, engine)`
(declared outside the four source files) atomically exchanges the two
tables' bodies — storage, index structures and view bindings — and with
them the visible tuple counts. -/
def swapTable (t1 t2 : PersistentTableM) : PersistentTableM × PersistentTableM :=
  (t2, t1)

/-- Result of `SwapTablesExecutor::p_execute`: the two target tables
afterwards, the rows of the one-column DML-count output table, and the
count reported to `m_engine->addToTuplesModified`. -/
structure SwapResult where
  table1 : PersistentTableM
  table2 : PersistentTableM
  outputRows : List Int
  tuplesModifiedDelta : Int
  deriving DecidableEq, Repr

/-- `SwapTablesExecutor::p_execute`: count the visible tuples of both
targets as modified, swap the tables, then emit the one-row DML count
and report it to the engine. -/
def swapTablesExecute (t1 t2 : PersistentTableM) : SwapResult :=
  let modifiedTuples := t1.visibleTupleCount + t2.visibleTupleCount
  let swapped := swapTable t1 t2
  { table1 := swapped.1
    table2 := swapped.2
    outputRows := [modifiedTuples]
    tuplesModifiedDelta := modifiedTuples }

/-! ## Projection executor -/

/-- An output-column expression of the projection node: a bare
input-column reference (`TupleValueExpression`), a bare parameter
reference (`ParameterValueExpression`), or any other expression,
carried as its evaluation function on (input tuple, parameter array). -/
inductive PExpr (V : Type) where
  | tupleValue (columnIdx : Nat)
  | paramValue (paramIdx : Nat)
  | general (evalFn : List V → List V → V)

/-- Modelled from the spec: `AbstractExpression::eval` for the three
shapes above (the expression classes live outside the four source
files).  A bare column reference yields the indexed source column, a
bare parameter reference the indexed parameter. -/
def evalPExpr {V : Type} [Inhabited V] : PExpr V → List V → List V → V
  | .tupleValue c, tuple, _ => tuple.getD c default
  | .paramValue i, _, params => params.getD i default
  | .general f, tuple, params => f tuple params

/-- Modelled from the spec: `ExpressionUtil::convertIfAllTupleValues`
(outside the four source files) — if every output expression is a bare
input-column reference, the array of source column indices; otherwise
null. -/
def convertIfAllTupleValues {V : Type} : List (PExpr V) → Option (List Nat)
  | [] => some []
  | .tupleValue c :: rest => (convertIfAllTupleValues rest).map (fun cols => c :: cols)
  | _ :: _ => none

/-- Modelled from the spec: `ExpressionUtil::convertIfAllParameterValues`
(outside the four source files) — if every output expression is a bare
parameter reference, the array of parameter indices; otherwise null. -/
def convertIfAllParameterValues {V : Type} : List (PExpr V) → Option (List Nat)
  | [] => some []
  | .paramValue i :: rest => (convertIfAllParameterValues rest).map (fun idxs => i :: idxs)
  | _ :: _ => none

/-- `ProjectionExecutor::p_execute` over an input table (the rows the
delete-as-we-go iterator yields, in order): for each input tuple,
populate the output tuple column by column using fast path A
(`all_tuple_array`), fast path B (`all_param_array`) or full expression
evaluation, and insert it into the output table.  (The C++ fills the
columns in descending index order; the columns are independent, so the
per-row result is the list of column values.) -/
def projectionExecute {V : Type} [Inhabited V] (exprs : List (PExpr V)) (params : List V)
    (input : List (List V)) : List (List V) :=
  let all_tuple_array := convertIfAllTupleValues exprs
  let all_param_array := convertIfAllParameterValues exprs
  input.map (fun tuple =>
    match all_tuple_array with
    | some cols => cols.map (fun c => tuple.getD c default)
    | none =>
      match all_param_array with
      | some idxs => idxs.map (fun i => params.getD i default)
      | none => exprs.map (fun e => evalPExpr e tuple params))

/-! ## Characterization of `findNextEdge` used by the proofs -/

section WindowChar

variable {ρ K₁ K₂ : Type} [DecidableEq K₁] [DecidableEq K₂]

/-- Closed form of the `findNextEdge` scan loop entered with previous
row `prev` and unread rows `l`: the run of peers of `prev` extends the
group and feeds the per-row lookaheads; the first non-peer row (if any)
is left in the buffered input tuple and classifies the edge. -/
def findNextEdgeSpec (cfg : WFConfig ρ K₁ K₂) (prev : ρ) (l : List ρ) (gs : Nat)
    (states : List AggState) : EdgeResult ρ :=
  match l.dropWhile (isPeerOf cfg prev) with
  | [] =>
    ⟨.EndOfInput, [], (l.takeWhile (isPeerOf cfg prev)).getLastD prev,
      gs + (l.takeWhile (isPeerOf cfg prev)).length,
      (l.takeWhile (isPeerOf cfg prev)).foldl
        (fun s r => lookaheadOneRowForAggs cfg.aggs s r) states⟩
  | r :: rest =>
    ⟨if cfg.pKey r = cfg.pKey prev then .StartOfOrderByGroup else .StartOfPartitionByGroup,
      rest, r, gs + (l.takeWhile (isPeerOf cfg prev)).length,
      (l.takeWhile (isPeerOf cfg prev)).foldl
        (fun s r => lookaheadOneRowForAggs cfg.aggs s r) states⟩

end WindowChar

/-! ## Concrete instances used by witnesses and counterexamples -/

/-- A window executor computing `RANK() OVER (PARTITION BY p ORDER BY
o)` and `DENSE_RANK() OVER (PARTITION BY p ORDER BY o)` on rows
`(p, o)`. -/
def rankDenseCfg : WFConfig (Int × Int) Int Int :=
  ⟨Prod.fst, Prod.snd, [⟨.rank, []⟩, ⟨.denseRank, []⟩]⟩

/-- Spec scenarios S3/S4: sorted input `[(A,1),(A,1),(A,2),(B,1)]`. -/
def rankDenseRows : List (Int × Int) := [(0, 1), (0, 1), (0, 2), (1, 1)]

/-- A two-row order-by peer group: both rows share partition key 0 and
order-by key 1. -/
def rankDenseCexRows : List (Int × Int) := [(0, 1), (0, 1)]

/-- A window executor computing `COUNT(*) OVER (PARTITION BY p ORDER BY
o)` on rows `(p, o)`. -/
def countCfg : WFConfig (Int × Int) Int Int :=
  ⟨Prod.fst, Prod.snd, [⟨.count, []⟩]⟩

/-- A sorted input whose partitions each consist of a single order-by
peer group. -/
def countRows : List (Int × Int) := [(0, 5), (0, 5), (0, 5), (1, 7)]

/-- A sorted one-partition input with two different order-by keys. -/
def countCexRows : List (Int × Int) := [(0, 1), (0, 2)]

/-- A dispatcher state at the start of a transaction on a host with 4
sites: full latch, own locals bound, no completion signals yet. -/
def dispatchStart : DispatchState := ⟨4, 4, .own, 0⟩

/-- An executor list whose second executor is a replicated-table insert
for which this site becomes the driver and whose `execute` fails. -/
def failingDriverUnits : List ExecUnit :=
  [⟨false, false, true, [true], true⟩, ⟨true, true, false, [true, true], true⟩]

/-- A single ordinary executor that succeeds. -/
def singleOkUnit : ExecUnit := ⟨false, false, true, [], true⟩

section WindowCharMore

variable {ρ K₁ K₂ : Type} [DecidableEq K₁] [DecidableEq K₂]

/-- The entry condition holding at the top of every loop iteration of
`p_execute`: at `StartOfInput` the leading edge still has the whole
input `b :: rest` ahead of it, while on a group edge the buffered input
tuple holds the group's first row `b` and the leading edge has `rest`
ahead. -/
def entryAt (etype : EdgeType) (st : ExecState ρ) (b : ρ) (rest : List ρ) : Prop :=
  etype = .StartOfInput ∧ st.leading = b :: rest ∨
    (etype = .StartOfPartitionByGroup ∨ etype = .StartOfOrderByGroup) ∧
      st.leading = rest ∧ st.buffered = b

/-- The aggregate states at the top of a loop iteration, after the
conditional reset. -/
def resetStates (cfg : WFConfig ρ K₁ K₂) (etype : EdgeType) (states : List AggState) :
    List AggState :=
  if etype = .StartOfInput ∨ etype = .StartOfPartitionByGroup
    then resetAggs cfg.aggs states else states

/-- The aggregate states at emission time for an order-by group `grp`:
every row of the group has been offered to the per-row lookaheads, and
the group-size lookahead has been recorded. -/
def groupStates (cfg : WFConfig ρ K₁ K₂) (states0 : List AggState) (grp : List ρ) :
    List AggState :=
  lookaheadNextGroupForAggs cfg.aggs
    (grp.foldl (fun s r => lookaheadOneRowForAggs cfg.aggs s r) states0) grp.length

end WindowCharMore

/-! ## Lemmas: characterizing the `findNextEdge` scan -/

section WindowProofs

variable {ρ K₁ K₂ : Type} [DecidableEq K₁] [DecidableEq K₂]

theorem pExecuteLoop_endOfInput (cfg : WFConfig ρ K₁ K₂) (fuel : Nat) (st : ExecState ρ) :
    pExecuteLoop cfg fuel .EndOfInput st = st := by
  cases fuel with
  | zero => rfl
  | succ n => simp [pExecuteLoop]

theorem isPeerOf_congr (cfg : WFConfig ρ K₁ K₂) {prev r : ρ}
    (hp : cfg.pKey r = cfg.pKey prev) (ho : cfg.oKey r = cfg.oKey prev) :
    isPeerOf cfg prev = isPeerOf cfg r := by
  funext x
  simp [isPeerOf, hp, ho]

theorem findNextEdgeLoop_eq (cfg : WFConfig ρ K₁ K₂) (prev : ρ) (l : List ρ) (gs : Nat)
    (states : List AggState) :
    findNextEdgeLoop cfg prev l gs states = findNextEdgeSpec cfg prev l gs states := by
  induction l generalizing prev gs states with
  | nil => simp [findNextEdgeLoop, findNextEdgeSpec]
  | cons r rest ih =>
    by_cases hp : cfg.pKey r = cfg.pKey prev
    · by_cases ho : cfg.oKey r = cfg.oKey prev
      · have hpeer : isPeerOf cfg prev r = true := by simp [isPeerOf, hp, ho]
        have hfun := isPeerOf_congr cfg hp ho
        have hstep : findNextEdgeLoop cfg prev (r :: rest) gs states
            = findNextEdgeLoop cfg r rest (gs + 1) (lookaheadOneRowForAggs cfg.aggs states r) := by
          simp [findNextEdgeLoop, hp, ho]
        rw [hstep, ih]
        unfold findNextEdgeSpec
        rw [List.dropWhile_cons, List.takeWhile_cons, hpeer]
        simp only [if_true, hfun]
        cases hdrop : List.dropWhile (isPeerOf cfg r) rest with
        | nil =>
          simp only [List.getLastD_cons, List.foldl_cons, List.length_cons,
            EdgeResult.mk.injEq, and_true, true_and]
          omega
        | cons t rest₂ =>
          simp only [List.getLastD_cons, List.foldl_cons, List.length_cons, hp,
            EdgeResult.mk.injEq, and_true, true_and]
          omega
      · have hpeer : isPeerOf cfg prev r = false := by simp [isPeerOf, ho]
        have hstep : findNextEdgeLoop cfg prev (r :: rest) gs states
            = ⟨.StartOfOrderByGroup, rest, r, gs, states⟩ := by
          simp [findNextEdgeLoop, hp, ho]
        rw [hstep]
        unfold findNextEdgeSpec
        rw [List.dropWhile_cons, List.takeWhile_cons, hpeer]
        simp [hp]
    · have hpeer : isPeerOf cfg prev r = false := by simp [isPeerOf, hp]
      have hstep : findNextEdgeLoop cfg prev (r :: rest) gs states
          = ⟨.StartOfPartitionByGroup, rest, r, gs, states⟩ := by
        simp [findNextEdgeLoop, hp]
      rw [hstep]
      unfold findNextEdgeSpec
      rw [List.dropWhile_cons, List.takeWhile_cons, hpeer]
      simp [hp]

theorem findNextEdge_start_nil (cfg : WFConfig ρ K₁ K₂) (buf : ρ) (states : List AggState) :
    findNextEdge cfg .StartOfInput [] buf states = ⟨.EndOfInput, [], buf, 0, states⟩ := by
  simp [findNextEdge]

theorem findNextEdge_start (cfg : WFConfig ρ K₁ K₂) (b : ρ) (rest : List ρ) (buf : ρ)
    (states : List AggState) :
    findNextEdge cfg .StartOfInput (b :: rest) buf states =
      findNextEdgeSpec cfg b rest 1 (lookaheadOneRowForAggs cfg.aggs states b) := by
  simp [findNextEdge, findNextEdgeLoop_eq]

theorem findNextEdge_continue (cfg : WFConfig ρ K₁ K₂) {etype : EdgeType}
    (h : etype ≠ .StartOfInput) (rest : List ρ) (b : ρ) (states : List AggState) :
    findNextEdge cfg etype rest b states =
      findNextEdgeSpec cfg b rest 1 (lookaheadOneRowForAggs cfg.aggs states b) := by
  simp [findNextEdge, h, findNextEdgeLoop_eq]

theorem pExecuteLoop_succ (cfg : WFConfig ρ K₁ K₂) (fuel : Nat) {etype : EdgeType}
    (h : etype ≠ .EndOfInput) (st : ExecState ρ) :
    pExecuteLoop cfg (fuel + 1) etype st =
      pExecuteLoop cfg fuel (execStep cfg etype st).1 (execStep cfg etype st).2 := by
  simp [pExecuteLoop, h]

theorem entryAt_ne_end {etype : EdgeType} {st : ExecState ρ} {b : ρ} {rest : List ρ}
    (hentry : entryAt etype st b rest) : etype ≠ .EndOfInput := by
  rcases hentry with ⟨h, _⟩ | ⟨h | h, _⟩ <;> simp [h]

theorem entryAt_findNextEdge (cfg : WFConfig ρ K₁ K₂) {etype : EdgeType} {st : ExecState ρ}
    {b : ρ} {rest : List ρ} (hentry : entryAt etype st b rest) (s0 : List AggState) :
    findNextEdge cfg etype st.leading st.buffered s0 =
      findNextEdgeSpec cfg b rest 1 (lookaheadOneRowForAggs cfg.aggs s0 b) := by
  rcases hentry with ⟨he, hl⟩ | ⟨he, hl, hb⟩
  · rw [he, hl]
    exact findNextEdge_start cfg b rest st.buffered s0
  · rw [hl, hb]
    exact findNextEdge_continue cfg (by rcases he with h | h <;> simp [h]) rest b s0

theorem execStep_nil (cfg : WFConfig ρ K₁ K₂) {etype : EdgeType} {st : ExecState ρ}
    {b : ρ} {rest : List ρ} (hentry : entryAt etype st b rest) (hmid : st.middle = b :: rest)
    (hdrop : rest.dropWhile (isPeerOf cfg b) = []) :
    execStep cfg etype st =
      (EdgeType.EndOfInput,
        { middle := []
          leading := []
          buffered := rest.getLastD b
          groupSize := (b :: rest).length
          states := endGroupForAggs cfg.aggs
            (groupStates cfg (resetStates cfg etype st.states) (b :: rest))
          output := st.output ++
            emitRows (groupStates cfg (resetStates cfg etype st.states) (b :: rest)) (b :: rest)
          groupSizes := st.groupSizes ++ [(b :: rest).length] }) := by
  have hrun : rest.takeWhile (isPeerOf cfg b) = rest := by
    have h := List.takeWhile_append_dropWhile (isPeerOf cfg b) rest
    rw [hdrop] at h
    simpa using h
  have hlen : 1 + rest.length = (b :: rest).length := by
    simp [Nat.add_comm]
  simp only [execStep]
  rw [entryAt_findNextEdge cfg hentry]
  simp only [findNextEdgeSpec, hdrop, hrun]
  rw [hmid, hlen, List.take_length, List.drop_length]
  simp only [groupStates, resetStates, List.foldl_cons, List.length_cons, Prod.mk.injEq,
    ExecState.mk.injEq]

theorem execStep_cons (cfg : WFConfig ρ K₁ K₂) {etype : EdgeType} {st : ExecState ρ}
    {b t : ρ} {rest rest₂ : List ρ} (hentry : entryAt etype st b rest)
    (hmid : st.middle = b :: rest) (hdrop : rest.dropWhile (isPeerOf cfg b) = t :: rest₂) :
    execStep cfg etype st =
      ((if cfg.pKey t = cfg.pKey b then EdgeType.StartOfOrderByGroup
          else EdgeType.StartOfPartitionByGroup),
        { middle := t :: rest₂
          leading := rest₂
          buffered := t
          groupSize := (b :: rest.takeWhile (isPeerOf cfg b)).length
          states := endGroupForAggs cfg.aggs
            (groupStates cfg (resetStates cfg etype st.states)
              (b :: rest.takeWhile (isPeerOf cfg b)))
          output := st.output ++
            emitRows (groupStates cfg (resetStates cfg etype st.states)
              (b :: rest.takeWhile (isPeerOf cfg b)))
              (b :: rest.takeWhile (isPeerOf cfg b))
          groupSizes := st.groupSizes ++ [(b :: rest.takeWhile (isPeerOf cfg b)).length] }) := by
  have hsplit : rest = rest.takeWhile (isPeerOf cfg b) ++ t :: rest₂ := by
    conv_lhs => rw [← List.takeWhile_append_dropWhile (isPeerOf cfg b) rest]
    rw [hdrop]
  have hbr : st.middle = (b :: rest.takeWhile (isPeerOf cfg b)) ++ t :: rest₂ := by
    rw [hmid, List.cons_append, ← hsplit]
  have hlen : 1 + (rest.takeWhile (isPeerOf cfg b)).length
      = (b :: rest.takeWhile (isPeerOf cfg b)).length := by
    simp [Nat.add_comm]
  simp only [execStep]
  rw [entryAt_findNextEdge cfg hentry]
  simp only [findNextEdgeSpec, hdrop]
  rw [hbr, hlen, List.take_left, List.drop_left]
  simp only [groupStates, resetStates, List.foldl_cons, List.length_cons, Prod.mk.injEq,
    ExecState.mk.injEq]

theorem loopAccounting (cfg : WFConfig ρ K₁ K₂) : ∀ (fuel : Nat) (b : ρ) (rest : List ρ)
    (etype : EdgeType) (st : ExecState ρ),
    rest.length + 1 ≤ fuel →
    entryAt etype st b rest →
    st.middle = b :: rest →
    (pExecuteLoop cfg fuel etype st).output.length = st.output.length + (rest.length + 1) ∧
    (pExecuteLoop cfg fuel etype st).groupSizes.sum = st.groupSizes.sum + (rest.length + 1) := by
  intro fuel
  induction fuel with
  | zero => intro b rest etype st hfuel hentry hmid; omega
  | succ f ih =>
    intro b rest etype st hfuel hentry hmid
    rw [pExecuteLoop_succ cfg f (entryAt_ne_end hentry) st]
    cases hdrop : rest.dropWhile (isPeerOf cfg b) with
    | nil =>
      rw [execStep_nil cfg hentry hmid hdrop]
      rw [pExecuteLoop_endOfInput]
      constructor
      · simp [emitRows]
      · simp
    | cons t rest₂ =>
      rw [execStep_cons cfg hentry hmid hdrop]
      have hsplit : rest = rest.takeWhile (isPeerOf cfg b) ++ t :: rest₂ := by
        conv_lhs => rw [← List.takeWhile_append_dropWhile (isPeerOf cfg b) rest]
        rw [hdrop]
      have hlens : rest.length = (rest.takeWhile (isPeerOf cfg b)).length + rest₂.length + 1 := by
        have h := congrArg List.length hsplit
        simp at h
        omega
      obtain ⟨h1, h2⟩ := ih t rest₂
        (if cfg.pKey t = cfg.pKey b then EdgeType.StartOfOrderByGroup
          else EdgeType.StartOfPartitionByGroup)
        { middle := t :: rest₂
          leading := rest₂
          buffered := t
          groupSize := (b :: rest.takeWhile (isPeerOf cfg b)).length
          states := endGroupForAggs cfg.aggs
            (groupStates cfg (resetStates cfg etype st.states)
              (b :: rest.takeWhile (isPeerOf cfg b)))
          output := st.output ++
            emitRows (groupStates cfg (resetStates cfg etype st.states)
              (b :: rest.takeWhile (isPeerOf cfg b)))
              (b :: rest.takeWhile (isPeerOf cfg b))
          groupSizes := st.groupSizes ++ [(b :: rest.takeWhile (isPeerOf cfg b)).length] }
        (by omega)
        (Or.inr ⟨by by_cases h : cfg.pKey t = cfg.pKey b <;> simp [h], rfl, rfl⟩) rfl
      rw [h1, h2]
      constructor
      · simp [emitRows]
        omega
      · simp
        omega

/-! ## Lemmas: the aggregate vector acts pointwise -/

theorem zipWith_id_right {α β : Type} (as : List α) (bs : List β)
    (h : bs.length = as.length) : List.zipWith (fun _ s => s) as bs = bs := by
  induction as generalizing bs with
  | nil => cases bs with
    | nil => rfl
    | cons b bs => simp at h
  | cons a as ih => cases bs with
    | nil => simp at h
    | cons b bs =>
      simp only [List.zipWith_cons_cons]
      rw [ih bs (by simpa using h)]

theorem zipWith_zipWith_same {α β : Type} (f g : α → β → β) (as : List α) (bs : List β) :
    List.zipWith f as (List.zipWith g as bs)
      = List.zipWith (fun a b => f a (g a b)) as bs := by
  induction as generalizing bs with
  | nil => rfl
  | cons a as ih => cases bs with
    | nil => rfl
    | cons b bs => simp only [List.zipWith_cons_cons, ih]

theorem foldl_lookahead (aggs : List (AggSpec ρ)) (grp : List ρ) (states : List AggState)
    (hlen : states.length = aggs.length) :
    grp.foldl (fun s r => lookaheadOneRowForAggs aggs s r) states
      = List.zipWith (fun a s => grp.foldl (lookStep a) s) aggs states := by
  induction grp generalizing states with
  | nil => exact (zipWith_id_right aggs states hlen).symm
  | cons r grp ih =>
    rw [List.foldl_cons]
    rw [ih (lookaheadOneRowForAggs aggs states r)
      (by simp [lookaheadOneRowForAggs, hlen])]
    rw [lookaheadOneRowForAggs, zipWith_zipWith_same]
    simp only [List.foldl_cons]

theorem groupStates_eq_zipWith (cfg : WFConfig ρ K₁ K₂) (states0 : List AggState)
    (grp : List ρ) (hlen : states0.length = cfg.aggs.length) :
    groupStates cfg states0 grp
      = List.zipWith (fun a s => aggEmittedState a grp s) cfg.aggs states0 := by
  rw [groupStates, foldl_lookahead cfg.aggs grp states0 hlen, lookaheadNextGroupForAggs,
    zipWith_zipWith_same]
  rfl

theorem endGroup_groupStates (cfg : WFConfig ρ K₁ K₂) (states0 : List AggState)
    (grp : List ρ) (hlen : states0.length = cfg.aggs.length) :
    endGroupForAggs cfg.aggs (groupStates cfg states0 grp)
      = List.zipWith (fun a s => endGroupAgg a.kind (aggEmittedState a grp s)) cfg.aggs states0 := by
  rw [groupStates_eq_zipWith cfg states0 grp hlen, endGroupForAggs, zipWith_zipWith_same]

theorem resetStates_length (cfg : WFConfig ρ K₁ K₂) (etype : EdgeType)
    (states : List AggState) (hlen : states.length = cfg.aggs.length) :
    (resetStates cfg etype states).length = cfg.aggs.length := by
  rw [resetStates]
  by_cases h : etype = EdgeType.StartOfInput ∨ etype = EdgeType.StartOfPartitionByGroup <;>
    simp [h, resetAggs, hlen]

end WindowProofs

/-! ## Lemmas: one aggregate across one order-by peer group -/

section SortedProofs

variable {ρ K₁ K₂ : Type} [LinearOrder K₁] [LinearOrder K₂]

theorem foldl_lookStep_rankLike (a : AggSpec ρ) (hk : needsLookahead a.kind = false)
    (grp : List ρ) (s : AggState) : grp.foldl (lookStep a) s = s := by
  induction grp with
  | nil => rfl
  | cons r grp ih =>
    rw [List.foldl_cons, lookStep, hk]
    simpa using ih

theorem foldl_lookStep_count (a : AggSpec ρ) (hk : a.kind = .count) (grp : List ρ)
    (s : AggState) :
    (grp.foldl (lookStep a) s).value = s.value + ((grp.filter (countsRow a)).length : Int) := by
  induction grp generalizing s with
  | nil => simp
  | cons r grp ih =>
    have hstep : (lookStep a s r).value = s.value + (if countsRow a r then 1 else 0) := by
      rw [lookStep, hk]
      simp only [needsLookahead, if_true]
      cases he : a.inputExprs with
      | nil => simp [lookaheadOneRowAgg, countsRow, evalAggArgs, he]
      | cons e es =>
        simp only [lookaheadOneRowAgg, countsRow, evalAggArgs, he, List.map_cons]
        by_cases hv : (e r).isSome <;> simp [hv]
    rw [List.foldl_cons, ih (lookStep a s r), hstep, List.filter_cons]
    by_cases hc : countsRow a r <;> simp [hc] <;> push_cast <;> ring

theorem toFinset_const {α : Type} [DecidableEq α] (c : α) :
    ∀ l : List α, l ≠ [] → (∀ x ∈ l, x = c) → l.toFinset = {c} := by
  intro l
  induction l with
  | nil => intro h _; exact absurd rfl h
  | cons x l ih =>
    intro _ hall
    rw [List.toFinset_cons, hall x (by simp)]
    cases l with
    | nil => simp
    | cons y l' =>
      rw [ih (by simp) (fun z hz => hall z (List.mem_cons_of_mem x hz))]
      simp

theorem filter_smaller_pre (cfg : WFConfig ρ K₁ K₂) {b r : ρ} {pre : List ρ}
    (hpre : ∀ x ∈ pre, cfg.pKey x = cfg.pKey b → cfg.oKey x < cfg.oKey b)
    (hrp : cfg.pKey r = cfg.pKey b) (hro : cfg.oKey r = cfg.oKey b) :
    pre.filter (fun x => decide (cfg.pKey x = cfg.pKey r) && decide (cfg.oKey x < cfg.oKey r))
      = pre.filter (samePartB cfg b) := by
  apply List.filter_congr
  intro x hx
  by_cases hxp : cfg.pKey x = cfg.pKey b
  · simp [samePartB, hrp, hro, hxp, hpre x hx hxp]
  · simp [samePartB, hrp, hxp]

theorem filter_smaller_grp (cfg : WFConfig ρ K₁ K₂) {b r : ρ} {gp : List ρ}
    (hkeys : ∀ x ∈ gp, cfg.pKey x = cfg.pKey b ∧ cfg.oKey x = cfg.oKey b)
    (hro : cfg.oKey r = cfg.oKey b) :
    gp.filter (fun x => decide (cfg.pKey x = cfg.pKey r) && decide (cfg.oKey x < cfg.oKey r))
      = [] := by
  rw [List.filter_eq_nil_iff]
  intro x hx
  simp [(hkeys x hx).2, hro]

theorem filter_le_pre (cfg : WFConfig ρ K₁ K₂) {a : AggSpec ρ} {b r : ρ} {pre : List ρ}
    (hpre : ∀ x ∈ pre, cfg.pKey x = cfg.pKey b → cfg.oKey x < cfg.oKey b)
    (hrp : cfg.pKey r = cfg.pKey b) (hro : cfg.oKey r = cfg.oKey b) :
    pre.filter (fun x => decide (cfg.pKey x = cfg.pKey r) && decide (cfg.oKey x ≤ cfg.oKey r)
        && countsRow a x)
      = (pre.filter (samePartB cfg b)).filter (countsRow a) := by
  rw [List.filter_filter]
  apply List.filter_congr
  intro x hx
  by_cases hxp : cfg.pKey x = cfg.pKey b
  · simp [samePartB, hrp, hro, hxp, le_of_lt (hpre x hx hxp), Bool.and_comm]
  · simp [samePartB, hrp, hxp]

theorem filter_le_grp (cfg : WFConfig ρ K₁ K₂) {a : AggSpec ρ} {b r : ρ} {grp : List ρ}
    (hkeys : ∀ x ∈ grp, cfg.pKey x = cfg.pKey b ∧ cfg.oKey x = cfg.oKey b)
    (hrp : cfg.pKey r = cfg.pKey b) (hro : cfg.oKey r = cfg.oKey b) :
    grp.filter (fun x => decide (cfg.pKey x = cfg.pKey r) && decide (cfg.oKey x ≤ cfg.oKey r)
        && countsRow a x)
      = grp.filter (countsRow a) := by
  apply List.filter_congr
  intro x hx
  simp [(hkeys x hx).1, (hkeys x hx).2, hrp, hro]

theorem filter_le_tl (cfg : WFConfig ρ K₁ K₂) {a : AggSpec ρ} {b r : ρ} {tl : List ρ}
    (htl : ∀ x ∈ tl, cfg.pKey x = cfg.pKey b → cfg.oKey b < cfg.oKey x)
    (hrp : cfg.pKey r = cfg.pKey b) (hro : cfg.oKey r = cfg.oKey b) :
    tl.filter (fun x => decide (cfg.pKey x = cfg.pKey r) && decide (cfg.oKey x ≤ cfg.oKey r)
        && countsRow a x)
      = [] := by
  rw [List.filter_eq_nil_iff]
  intro x hx
  by_cases hxp : cfg.pKey x = cfg.pKey b
  · simp [hrp, hro, hxp, not_le.mpr (htl x hx hxp)]
  · simp [hrp, hxp]

/-- The value the executor emits for one aggregate at row `r` of the
current order-by peer group equals the amended specification value. -/
theorem aggEmitted_value (cfg : WFConfig ρ K₁ K₂) {a : AggSpec ρ} {s : AggState}
    {b r : ρ} {pre grp tl gp gp₂ : List ρ}
    (hinv : aggInv cfg a (pre.filter (samePartB cfg b)) s)
    (hgrp : grp = gp ++ r :: gp₂)
    (hkeys : ∀ x ∈ grp, cfg.pKey x = cfg.pKey b ∧ cfg.oKey x = cfg.oKey b)
    (hpre : ∀ x ∈ pre, cfg.pKey x = cfg.pKey b → cfg.oKey x < cfg.oKey b)
    (htl : ∀ x ∈ tl, cfg.pKey x = cfg.pKey b → cfg.oKey b < cfg.oKey x) :
    finalizeAgg (aggEmittedState a grp s)
      = aggAmendedValue cfg a (pre ++ (grp ++ tl)) (pre ++ gp) r := by
  have hrmem : r ∈ grp := by rw [hgrp]; exact List.mem_append_right _ (by simp)
  have hrp : cfg.pKey r = cfg.pKey b := (hkeys r hrmem).1
  have hro : cfg.oKey r = cfg.oKey b := (hkeys r hrmem).2
  have hkgp : ∀ x ∈ gp, cfg.pKey x = cfg.pKey b ∧ cfg.oKey x = cfg.oKey b :=
    fun x hx => hkeys x (by rw [hgrp]; exact List.mem_append_left _ hx)
  cases hk : a.kind with
  | rank =>
    have hfold := foldl_lookStep_rankLike a (by rw [hk]; rfl) grp s
    simp only [aggInv, hk] at hinv
    simp only [aggAmendedValue, hk, rankClaimedValue, List.filter_append,
      filter_smaller_pre cfg hpre hrp hro, filter_smaller_grp cfg hkgp hro]
    simp [aggEmittedState, hfold, hk, lookaheadNextGroupAgg, finalizeAgg, hinv]
  | denseRank =>
    have hfold := foldl_lookStep_rankLike a (by rw [hk]; rfl) grp s
    simp only [aggInv, hk] at hinv
    simp only [aggAmendedValue, hk, denseRankAmendedValue, List.filter_append,
      filter_smaller_pre cfg hpre hrp hro, filter_smaller_grp cfg hkgp hro]
    simp [aggEmittedState, hfold, hk, lookaheadNextGroupAgg, finalizeAgg, hinv.1]
  | count =>
    have hfold := foldl_lookStep_count a hk grp s
    simp only [aggInv, hk] at hinv
    simp only [aggAmendedValue, hk, countAmendedValue, List.filter_append,
      filter_le_pre cfg hpre hrp hro, filter_le_grp cfg hkeys hrp hro,
      filter_le_tl cfg htl hrp hro]
    simp only [aggEmittedState, hk, lookaheadNextGroupAgg, finalizeAgg, hfold, hinv]
    simp

/-- After `endGroup`, the aggregate invariant transports to the
partition prefix extended by the just-emitted group. -/
theorem aggEmitted_inv (cfg : WFConfig ρ K₁ K₂) {a : AggSpec ρ} {s : AggState}
    {b : ρ} {pre grp : List ρ}
    (hinv : aggInv cfg a (pre.filter (samePartB cfg b)) s)
    (hgrpne : grp ≠ [])
    (hkeys : ∀ x ∈ grp, cfg.pKey x = cfg.pKey b ∧ cfg.oKey x = cfg.oKey b)
    (hpre : ∀ x ∈ pre, cfg.pKey x = cfg.pKey b → cfg.oKey x < cfg.oKey b) :
    aggInv cfg a (pre.filter (samePartB cfg b) ++ grp)
      (endGroupAgg a.kind (aggEmittedState a grp s)) := by
  cases hk : a.kind with
  | rank =>
    have hfold := foldl_lookStep_rankLike a (by rw [hk]; rfl) grp s
    simp only [aggInv, hk] at hinv
    simp only [aggInv, hk, aggEmittedState, hfold, lookaheadNextGroupAgg, endGroupAgg]
    simp [hinv]
    push_cast
    ring
  | denseRank =>
    have hfold := foldl_lookStep_rankLike a (by rw [hk]; rfl) grp s
    simp only [aggInv, hk] at hinv
    simp only [aggInv, hk, aggEmittedState, hfold, lookaheadNextGroupAgg, endGroupAgg]
    have hob : cfg.oKey b ∉ ((pre.filter (samePartB cfg b)).map cfg.oKey).toFinset := by
      simp only [List.mem_toFinset, List.mem_map]
      rintro ⟨x, hx, hxo⟩
      rw [List.mem_filter] at hx
      have hxp : cfg.pKey x = cfg.pKey b := by
        have := hx.2
        simpa [samePartB] using this
      exact absurd hxo (ne_of_lt (hpre x hx.1 hxp))
    have hgset : (grp.map cfg.oKey).toFinset = {cfg.oKey b} := by
      apply toFinset_const
      · simpa using hgrpne
      · intro y hy
        rw [List.mem_map] at hy
        obtain ⟨x, hx, hxy⟩ := hy
        rw [← hxy]
        exact (hkeys x hx).2
    rw [List.map_append, List.toFinset_append, hgset, Finset.union_comm,
      ← Finset.insert_eq, Finset.card_insert_of_not_mem hob]
    constructor
    · rw [hinv.1, hinv.2]
      push_cast
      ring
    · exact hinv.2
  | count =>
    have hfold := foldl_lookStep_count a hk grp s
    simp only [aggInv, hk] at hinv
    simp only [aggInv, hk, aggEmittedState, lookaheadNextGroupAgg, endGroupAgg]
    rw [hfold, hinv, List.filter_append]
    simp

/-! ## Lemmas: the aggregate vector across one order-by peer group -/

theorem isPeerOf_true {cfg : WFConfig ρ K₁ K₂} {b x : ρ} (h : isPeerOf cfg b x = true) :
    cfg.pKey x = cfg.pKey b ∧ cfg.oKey x = cfg.oKey b := by
  simpa [isPeerOf] using h

theorem dropWhile_head_false {α : Type} (p : α → Bool) :
    ∀ (l : List α) {t : α} {tl : List α}, l.dropWhile p = t :: tl → p t = false := by
  intro l
  induction l with
  | nil => intro t tl h; simp at h
  | cons x l ih =>
    intro t tl h
    rw [List.dropWhile_cons] at h
    by_cases hx : p x = true
    · rw [if_pos hx] at h
      exact ih h
    · rw [if_neg hx] at h
      obtain ⟨rfl, rfl⟩ := List.cons.inj h
      simpa using hx

theorem lexLE_pKey_le {cfg : WFConfig ρ K₁ K₂} {x y : ρ} (h : lexLE cfg x y) :
    cfg.pKey x ≤ cfg.pKey y := by
  rcases h with h | ⟨h, _⟩
  · exact le_of_lt h
  · exact le_of_eq h

/-- In a sorted table, every row after the current order-by peer group
that still belongs to the current partition has a strictly larger
order-by key. -/
theorem sorted_tail_gt (cfg : WFConfig ρ K₁ K₂) {b : ρ} {rest : List ρ}
    (hs : List.Pairwise (lexLE cfg) (b :: rest)) :
    ∀ x ∈ rest.dropWhile (isPeerOf cfg b), cfg.pKey x = cfg.pKey b → cfg.oKey b < cfg.oKey x := by
  cases hdrop : rest.dropWhile (isPeerOf cfg b) with
  | nil => intro x hx; simp at hx
  | cons t tl₂ =>
    have hsplit : rest = rest.takeWhile (isPeerOf cfg b) ++ t :: tl₂ := by
      conv_lhs => rw [← List.takeWhile_append_dropWhile (isPeerOf cfg b) rest]
      rw [hdrop]
    have htf : isPeerOf cfg b t = false := dropWhile_head_false _ rest hdrop
    rw [List.pairwise_cons] at hs
    obtain ⟨hb, hrest⟩ := hs
    have hbt : lexLE cfg b t := hb t (by rw [hsplit]; exact List.mem_append_right _ (by simp))
    have hps : List.Pairwise (lexLE cfg) (t :: tl₂) := by
      rw [hsplit] at hrest
      exact (List.pairwise_append.mp hrest).2.1
    rw [List.pairwise_cons] at hps
    intro x hx hxp
    have hcase : cfg.pKey t = cfg.pKey b → cfg.oKey b < cfg.oKey t := by
      intro hpt
      have hne : cfg.oKey t ≠ cfg.oKey b := by
        intro h
        rw [isPeerOf, hpt, h] at htf
        simp at htf
      rcases hbt with h | ⟨h, h2⟩
      · rw [hpt] at h
        exact absurd h (lt_irrefl _)
      · exact lt_of_le_of_ne h2 (fun hh => hne hh.symm)
    rcases List.mem_cons.mp hx with rfl | hx₂
    · exact hcase hxp
    · by_cases hpt : cfg.pKey t = cfg.pKey b
      · rcases hps.1 x hx₂ with h | ⟨h, h2⟩
        · rw [hpt, hxp] at h
          exact absurd h (lt_irrefl _)
        · exact lt_of_lt_of_le (hcase hpt) h2
      · have hblt : cfg.pKey b < cfg.pKey t := by
          rcases hbt with h | ⟨h, _⟩
          · exact h
          · exact absurd h.symm hpt
        rcases hps.1 x hx₂ with h | ⟨h, _⟩
        · rw [hxp] at h
          exact absurd (lt_trans hblt h) (lt_irrefl _)
        · rw [hxp] at h
          exact absurd h hpt

theorem samePartB_congr (cfg : WFConfig ρ K₁ K₂) {b t : ρ} (h : cfg.pKey t = cfg.pKey b) :
    samePartB cfg t = samePartB cfg b := by
  funext x
  simp [samePartB, h]

theorem filter_samePart_append (cfg : WFConfig ρ K₁ K₂) {b : ρ} {pre grp : List ρ}
    (hkeys : ∀ x ∈ grp, cfg.pKey x = cfg.pKey b) :
    (pre ++ grp).filter (samePartB cfg b) = pre.filter (samePartB cfg b) ++ grp := by
  rw [List.filter_append]
  congr 1
  rw [List.filter_eq_self]
  intro x hx
  simp [samePartB, hkeys x hx]

theorem specOutput_append (cfg : WFConfig ρ K₁ K₂) (full : List ρ) :
    ∀ (l1 l2 pre : List ρ),
      specOutput cfg full pre (l1 ++ l2)
        = specOutput cfg full pre l1 ++ specOutput cfg full (pre ++ l1) l2 := by
  intro l1
  induction l1 with
  | nil => intro l2 pre; simp [specOutput]
  | cons r l1 ih =>
    intro l2 pre
    rw [List.cons_append]
    simp only [specOutput]
    rw [ih l2 (pre ++ [r]), List.append_cons pre r l1]
    simp

theorem finalize_zipWith_eq (cfg : WFConfig ρ K₁ K₂) {b r : ρ} {pre grp tl gp gp₂ : List ρ}
    (hgrp : grp = gp ++ r :: gp₂)
    (hkeys : ∀ x ∈ grp, cfg.pKey x = cfg.pKey b ∧ cfg.oKey x = cfg.oKey b)
    (hpre : ∀ x ∈ pre, cfg.pKey x = cfg.pKey b → cfg.oKey x < cfg.oKey b)
    (htl : ∀ x ∈ tl, cfg.pKey x = cfg.pKey b → cfg.oKey b < cfg.oKey x) :
    ∀ (aggs : List (AggSpec ρ)) (states : List AggState),
      invList cfg (pre.filter (samePartB cfg b)) aggs states →
      finalizeAggs (List.zipWith (fun a s => aggEmittedState a grp s) aggs states)
        = aggs.map (fun a => aggAmendedValue cfg a (pre ++ (grp ++ tl)) (pre ++ gp) r) := by
  intro aggs
  induction aggs with
  | nil => intro states _; simp [finalizeAggs]
  | cons a aggs ih =>
    intro states hinv
    cases states with
    | nil => exact absurd hinv (by simp [invList])
    | cons s states =>
      simp only [invList] at hinv
      simp only [List.zipWith_cons_cons, finalizeAggs, List.map_cons]
      rw [show finalizeAgg (aggEmittedState a grp s)
          = aggAmendedValue cfg a (pre ++ (grp ++ tl)) (pre ++ gp) r from
          aggEmitted_value cfg hinv.1 hgrp hkeys hpre htl]
      have htail := ih states hinv.2
      simp only [finalizeAggs] at htail
      rw [htail]

theorem invList_endGroup (cfg : WFConfig ρ K₁ K₂) {b : ρ} {pre grp : List ρ}
    (hgrpne : grp ≠ [])
    (hkeys : ∀ x ∈ grp, cfg.pKey x = cfg.pKey b ∧ cfg.oKey x = cfg.oKey b)
    (hpre : ∀ x ∈ pre, cfg.pKey x = cfg.pKey b → cfg.oKey x < cfg.oKey b) :
    ∀ (aggs : List (AggSpec ρ)) (states : List AggState),
      invList cfg (pre.filter (samePartB cfg b)) aggs states →
      invList cfg (pre.filter (samePartB cfg b) ++ grp) aggs
        (List.zipWith (fun a s => endGroupAgg a.kind (aggEmittedState a grp s)) aggs states) := by
  intro aggs
  induction aggs with
  | nil =>
    intro states _
    cases states <;> simp [invList]
  | cons a aggs ih =>
    intro states hinv
    cases states with
    | nil => exact absurd hinv (by simp [invList])
    | cons s states =>
      simp only [invList] at hinv
      simp only [List.zipWith_cons_cons, invList]
      exact ⟨aggEmitted_inv cfg hinv.1 hgrpne hkeys hpre, ih states hinv.2⟩

theorem invList_reset (cfg : WFConfig ρ K₁ K₂) :
    ∀ (aggs : List (AggSpec ρ)) (states : List AggState),
      states.length = aggs.length →
      invList cfg ([] : List ρ) aggs (resetAggs aggs states) := by
  intro aggs
  induction aggs with
  | nil =>
    intro states h
    cases states with
    | nil => simp [resetAggs, invList]
    | cons s states => simp at h
  | cons a aggs ih =>
    intro states h
    cases states with
    | nil => simp at h
    | cons s states =>
      simp only [resetAggs, List.zipWith_cons_cons, invList]
      constructor
      · cases hk : a.kind <;> simp [aggInv, resetAgg, hk]
      · exact ih states (by simpa using h)

theorem invList_congrQ (cfg : WFConfig ρ K₁ K₂) {Q Q' : List ρ} (h : Q = Q') :
    ∀ (aggs : List (AggSpec ρ)) (states : List AggState),
      invList cfg Q aggs states → invList cfg Q' aggs states := by
  intro aggs states
  rw [h]
  exact id

theorem stepStates_length (cfg : WFConfig ρ K₁ K₂) (states0 : List AggState) (grp : List ρ)
    (hlen : states0.length = cfg.aggs.length) :
    (endGroupForAggs cfg.aggs (groupStates cfg states0 grp)).length = cfg.aggs.length := by
  rw [endGroup_groupStates cfg states0 grp hlen]
  simp [hlen]

theorem specOutput_group (cfg : WFConfig ρ K₁ K₂) {b : ρ} {pre grpAll tl : List ρ}
    {states : List AggState}
    (hinv : invList cfg (pre.filter (samePartB cfg b)) cfg.aggs states)
    (hkeys : ∀ x ∈ grpAll, cfg.pKey x = cfg.pKey b ∧ cfg.oKey x = cfg.oKey b)
    (hpre : ∀ x ∈ pre, cfg.pKey x = cfg.pKey b → cfg.oKey x < cfg.oKey b)
    (htl : ∀ x ∈ tl, cfg.pKey x = cfg.pKey b → cfg.oKey b < cfg.oKey x) :
    ∀ (grp' gp : List ρ), grpAll = gp ++ grp' →
      specOutput cfg (pre ++ (grpAll ++ tl)) (pre ++ gp) grp'
        = emitRows (List.zipWith (fun a s => aggEmittedState a grpAll s) cfg.aggs states) grp' := by
  intro grp'
  induction grp' with
  | nil => intro gp _; rfl
  | cons r grp'' ih =>
    intro gp hsplit
    simp only [specOutput, emitRows, List.map_cons]
    rw [← finalize_zipWith_eq cfg hsplit hkeys hpre htl cfg.aggs states hinv]
    have htail := ih (gp ++ [r]) (by rw [hsplit, List.append_cons])
    simp only [emitRows] at htail
    rw [List.append_assoc pre gp [r], htail]

/-- Master lemma: starting anywhere in the main loop of `p_execute` at
a position where the invariants hold, the rows appended to the output
are exactly the specification rows for the remaining input. -/
theorem masterLoop (cfg : WFConfig ρ K₁ K₂) {full : List ρ}
    (hs : List.Pairwise (lexLE cfg) full) :
    ∀ (fuel : Nat) (pre : List ρ) (b : ρ) (rest : List ρ) (etype : EdgeType) (st : ExecState ρ),
      full = pre ++ b :: rest →
      rest.length + 1 ≤ fuel →
      entryAt etype st b rest →
      st.middle = b :: rest →
      st.states.length = cfg.aggs.length →
      invList cfg (pre.filter (samePartB cfg b)) cfg.aggs (resetStates cfg etype st.states) →
      (∀ x ∈ pre, cfg.pKey x = cfg.pKey b → cfg.oKey x < cfg.oKey b) →
      (pExecuteLoop cfg fuel etype st).output
        = st.output ++ specOutput cfg full pre (b :: rest) := by
  intro fuel
  induction fuel with
  | zero => intro pre b rest etype st hfull hfuel; omega
  | succ f ih =>
    intro pre b rest etype st hfull hfuel hentry hmid hlen hinv hpre
    rw [pExecuteLoop_succ cfg f (entryAt_ne_end hentry) st]
    have hlen0 : (resetStates cfg etype st.states).length = cfg.aggs.length :=
      resetStates_length cfg etype st.states hlen
    have hpairb : List.Pairwise (lexLE cfg) (b :: rest) := by
      rw [hfull] at hs
      exact (List.pairwise_append.mp hs).2.1
    have hprelex : ∀ x ∈ pre, lexLE cfg x b := by
      intro x hx
      rw [hfull] at hs
      exact (List.pairwise_append.mp hs).2.2 x hx b (by simp)
    cases hdrop : rest.dropWhile (isPeerOf cfg b) with
    | nil =>
      have hrun : rest.takeWhile (isPeerOf cfg b) = rest := by
        have h := List.takeWhile_append_dropWhile (isPeerOf cfg b) rest
        rw [hdrop] at h
        simpa using h
      have hkeys : ∀ x ∈ b :: rest, cfg.pKey x = cfg.pKey b ∧ cfg.oKey x = cfg.oKey b := by
        intro x hx
        rcases List.mem_cons.mp hx with rfl | hx₂
        · exact ⟨rfl, rfl⟩
        · have hxtw : x ∈ List.takeWhile (isPeerOf cfg b) rest := by
            rw [hrun]
            exact hx₂
          exact isPeerOf_true (List.mem_takeWhile_imp hxtw)
      rw [execStep_nil cfg hentry hmid hdrop, pExecuteLoop_endOfInput]
      congr 1
      rw [groupStates_eq_zipWith cfg _ _ hlen0]
      have hgrp := specOutput_group cfg hinv hkeys hpre
        (show ∀ x ∈ ([] : List ρ),
          cfg.pKey x = cfg.pKey b → cfg.oKey b < cfg.oKey x by simp)
        (b :: rest) [] (by simp)
      simpa [hfull] using hgrp.symm
    | cons t rest₂ =>
      have hsplit : rest = rest.takeWhile (isPeerOf cfg b) ++ t :: rest₂ := by
        conv_lhs => rw [← List.takeWhile_append_dropWhile (isPeerOf cfg b) rest]
        rw [hdrop]
      have hbrest : b :: rest = (b :: rest.takeWhile (isPeerOf cfg b)) ++ t :: rest₂ := by
        rw [List.cons_append, ← hsplit]
      have hlens : rest.length
          = (rest.takeWhile (isPeerOf cfg b)).length + rest₂.length + 1 := by
        have h := congrArg List.length hsplit
        simp at h
        omega
      have hkeysGrp : ∀ x ∈ b :: rest.takeWhile (isPeerOf cfg b),
          cfg.pKey x = cfg.pKey b ∧ cfg.oKey x = cfg.oKey b := by
        intro x hx
        rcases List.mem_cons.mp hx with rfl | hx₂
        · exact ⟨rfl, rfl⟩
        · exact isPeerOf_true (List.mem_takeWhile_imp hx₂)
      have htlAll : ∀ x ∈ t :: rest₂, cfg.pKey x = cfg.pKey b → cfg.oKey b < cfg.oKey x := by
        have h := sorted_tail_gt cfg hpairb
        rw [hdrop] at h
        exact h
      have hfull2 : full = pre ++ ((b :: rest.takeWhile (isPeerOf cfg b)) ++ t :: rest₂) := by
        rw [hfull, hbrest]
      have hfull3 : full = (pre ++ (b :: rest.takeWhile (isPeerOf cfg b))) ++ t :: rest₂ := by
        rw [hfull2, List.append_assoc]
      have htmem : t ∈ rest := by
        rw [hsplit]
        exact List.mem_append_right _ (by simp)
      have hbt : lexLE cfg b t := by
        rw [List.pairwise_cons] at hpairb
        exact hpairb.1 t htmem
      rw [execStep_cons cfg hentry hmid hdrop]
      by_cases hpt : cfg.pKey t = cfg.pKey b
      · rw [if_pos hpt]
        have hot : cfg.oKey b < cfg.oKey t := htlAll t (by simp) hpt
        have hpre' : ∀ x ∈ pre ++ (b :: rest.takeWhile (isPeerOf cfg b)),
            cfg.pKey x = cfg.pKey t → cfg.oKey x < cfg.oKey t := by
          intro x hx hxp
          rcases List.mem_append.mp hx with hx₁ | hx₂
          · exact lt_trans (hpre x hx₁ (hxp.trans hpt)) hot
          · rw [(hkeysGrp x hx₂).2]
            exact hot
        have hinv' : invList cfg
            ((pre ++ (b :: rest.takeWhile (isPeerOf cfg b))).filter (samePartB cfg t))
            cfg.aggs
            (endGroupForAggs cfg.aggs (groupStates cfg (resetStates cfg etype st.states)
              (b :: rest.takeWhile (isPeerOf cfg b)))) := by
          rw [samePartB_congr cfg hpt,
            filter_samePart_append cfg (fun x hx => (hkeysGrp x hx).1),
            endGroup_groupStates cfg _ _ hlen0]
          exact invList_endGroup cfg (by simp) hkeysGrp hpre cfg.aggs _ hinv
        have hout := ih (pre ++ (b :: rest.takeWhile (isPeerOf cfg b))) t rest₂
          EdgeType.StartOfOrderByGroup
          { middle := t :: rest₂
            leading := rest₂
            buffered := t
            groupSize := (b :: rest.takeWhile (isPeerOf cfg b)).length
            states := endGroupForAggs cfg.aggs
              (groupStates cfg (resetStates cfg etype st.states)
                (b :: rest.takeWhile (isPeerOf cfg b)))
            output := st.output ++
              emitRows (groupStates cfg (resetStates cfg etype st.states)
                (b :: rest.takeWhile (isPeerOf cfg b)))
                (b :: rest.takeWhile (isPeerOf cfg b))
            groupSizes := st.groupSizes ++ [(b :: rest.takeWhile (isPeerOf cfg b)).length] }
          hfull3 (by omega) (Or.inr ⟨Or.inr rfl, rfl, rfl⟩) rfl
          (stepStates_length cfg _ _ hlen0)
          (by
            simpa [resetStates] using hinv')
          hpre'
        rw [hout]
        conv_rhs => rw [hbrest, specOutput_append]
        have hgrp : specOutput cfg full pre (b :: List.takeWhile (isPeerOf cfg b) rest)
            = emitRows (groupStates cfg (resetStates cfg etype st.states)
                (b :: List.takeWhile (isPeerOf cfg b) rest))
                (b :: List.takeWhile (isPeerOf cfg b) rest) := by
          have h := specOutput_group cfg hinv hkeysGrp hpre htlAll
            (b :: rest.takeWhile (isPeerOf cfg b)) [] (by simp)
          rw [groupStates_eq_zipWith cfg _ _ hlen0]
          rw [← hfull2] at h
          simpa using h
        rw [hgrp, List.append_assoc]
      · rw [if_neg hpt]
        have hblt : cfg.pKey b < cfg.pKey t := by
          rcases hbt with h | ⟨h, _⟩
          · exact h
          · exact absurd h.symm hpt
        have hnosame : ∀ x ∈ pre ++ (b :: rest.takeWhile (isPeerOf cfg b)),
            cfg.pKey x ≠ cfg.pKey t := by
          intro x hx
          rcases List.mem_append.mp hx with hx₁ | hx₂
          · exact ne_of_lt (lt_of_le_of_lt (lexLE_pKey_le (hprelex x hx₁)) hblt)
          · rw [(hkeysGrp x hx₂).1]
            exact ne_of_lt hblt
        have hQnil : (pre ++ (b :: rest.takeWhile (isPeerOf cfg b))).filter (samePartB cfg t)
            = [] := by
          rw [List.filter_eq_nil_iff]
          intro x hx
          simp [samePartB, hnosame x hx]
        have hpre' : ∀ x ∈ pre ++ (b :: rest.takeWhile (isPeerOf cfg b)),
            cfg.pKey x = cfg.pKey t → cfg.oKey x < cfg.oKey t := by
          intro x hx hxp
          exact absurd hxp (hnosame x hx)
        have hout := ih (pre ++ (b :: rest.takeWhile (isPeerOf cfg b))) t rest₂
          EdgeType.StartOfPartitionByGroup
          { middle := t :: rest₂
            leading := rest₂
            buffered := t
            groupSize := (b :: rest.takeWhile (isPeerOf cfg b)).length
            states := endGroupForAggs cfg.aggs
              (groupStates cfg (resetStates cfg etype st.states)
                (b :: rest.takeWhile (isPeerOf cfg b)))
            output := st.output ++
              emitRows (groupStates cfg (resetStates cfg etype st.states)
                (b :: rest.takeWhile (isPeerOf cfg b)))
                (b :: rest.takeWhile (isPeerOf cfg b))
            groupSizes := st.groupSizes ++ [(b :: rest.takeWhile (isPeerOf cfg b)).length] }
          hfull3 (by omega) (Or.inr ⟨Or.inl rfl, rfl, rfl⟩) rfl
          (stepStates_length cfg _ _ hlen0)
          (by
            rw [hQnil]
            simpa [resetStates] using invList_reset cfg cfg.aggs _
              (stepStates_length cfg _ _ hlen0))
          hpre'
        rw [hout]
        conv_rhs => rw [hbrest, specOutput_append]
        have hgrp : specOutput cfg full pre (b :: List.takeWhile (isPeerOf cfg b) rest)
            = emitRows (groupStates cfg (resetStates cfg etype st.states)
                (b :: List.takeWhile (isPeerOf cfg b) rest))
                (b :: List.takeWhile (isPeerOf cfg b) rest) := by
          have h := specOutput_group cfg hinv hkeysGrp hpre htlAll
            (b :: rest.takeWhile (isPeerOf cfg b)) [] (by simp)
          rw [groupStates_eq_zipWith cfg _ _ hlen0]
          rw [← hfull2] at h
          simpa using h
        rw [hgrp, List.append_assoc]

/-- On any sorted input table, the output of `p_execute` is exactly the
specification output. -/
theorem pExecute_sorted (cfg : WFConfig ρ K₁ K₂) [Inhabited ρ] (rows : List ρ)
    (hs : sortedInput cfg rows) :
    pExecuteOutput cfg rows = specOutput cfg rows [] rows := by
  cases rows with
  | nil => rfl
  | cons b rest =>
    have hp : List.Pairwise (lexLE cfg) (b :: rest) := hs
    have hmaster := masterLoop cfg hp ((b :: rest).length + 1) [] b rest .StartOfInput
      (initialExecState cfg (b :: rest) default)
      (by simp)
      (by simp)
      (Or.inl ⟨rfl, rfl⟩) rfl
      (by simp [initialExecState, initAggStates])
      (by
        simp only [List.filter_nil]
        simpa [resetStates, initialExecState] using
          invList_reset cfg cfg.aggs (initAggStates cfg.aggs) (by simp [initAggStates]))
      (by intro x hx; simp at hx)
    rw [pExecuteOutput, pExecuteModel]
    simpa [initialExecState] using hmaster

theorem specOutput_length (cfg : WFConfig ρ K₁ K₂) (full : List ρ) :
    ∀ (suffix pre : List ρ), (specOutput cfg full pre suffix).length = suffix.length := by
  intro suffix
  induction suffix with
  | nil => intro pre; rfl
  | cons r suffix ih => intro pre; simp [specOutput, ih]

theorem specOutput_getElem (cfg : WFConfig ρ K₁ K₂) (full : List ρ) :
    ∀ (suffix pre : List ρ) (i : Nat) (h : i < suffix.length),
      (specOutput cfg full pre suffix)[i]? =
        some (suffix[i],
          cfg.aggs.map (fun a => aggAmendedValue cfg a full (pre ++ suffix.take i) suffix[i])) := by
  intro suffix
  induction suffix with
  | nil => intro pre i h; simp at h
  | cons r suffix ih =>
    intro pre i h
    cases i with
    | zero => simp [specOutput]
    | succ i =>
      have hi : i < suffix.length := by simpa using h
      simp only [specOutput, List.getElem?_cons_succ, List.getElem_cons_succ]
      rw [ih (pre ++ [r]) i hi]
      simp [List.take_succ_cons]

end SortedProofs

/-! ## Claim theorems: window function executor -/

/-- C1 (amended): for every input table sorted by (partition-by key,
order-by key) processed by `WindowFunctionExecutor::p_execute` with a
`RANK` and a `DENSE_RANK` aggregate, the RANK value emitted for the row
at position `i` equals 1 plus the number of rows before position `i` in
the same partition-by group whose order-by key is strictly smaller, and
the DENSE_RANK value equals 1 plus the number of distinct *strictly
smaller* order-by keys occurring before position `i` in the same
partition-by group (the claim's unqualified "distinct order-by keys
occurring before position i" is refuted by
`denseRank_literal_claim_refuted`). -/
theorem rank_denseRank_values {ρ K₁ K₂ : Type} [Inhabited ρ] [LinearOrder K₁] [LinearOrder K₂]
    (cfg : WFConfig ρ K₁ K₂) (e₁ e₂ : List (ρ → Option Int)) (rows : List ρ)
    (haggs : cfg.aggs = [⟨.rank, e₁⟩, ⟨.denseRank, e₂⟩])
    (hs : sortedInput cfg rows) (i : Nat) (hi : i < rows.length) :
    (pExecuteOutput cfg rows)[i]? =
      some (rows[i], [rankClaimedValue cfg (rows.take i) rows[i],
        denseRankAmendedValue cfg (rows.take i) rows[i]]) := by
  rw [pExecute_sorted cfg rows hs, specOutput_getElem cfg rows rows [] i hi]
  simp [haggs, aggAmendedValue]

/-- Witness for C1 at the spec's S3/S4 scenario: position 2 of
`[(A,1),(A,1),(A,2),(B,1)]` gets RANK 3 and DENSE_RANK 2. -/
theorem rank_denseRank_values_witness :
    sortedInput rankDenseCfg rankDenseRows ∧
    (pExecuteOutput rankDenseCfg rankDenseRows)[2]? = some ((0, 2), [3, 2]) := by
  constructor
  · decide
  · rw [rank_denseRank_values rankDenseCfg [] [] rankDenseRows rfl (by decide) 2 (by decide)]
    decide

/-- Counterexample to C1 as literally stated: on the sorted input
`[(0,1),(0,1)]` the executor emits DENSE_RANK 1 for the second row,
but "1 plus the number of distinct order-by keys occurring before
position 1 in the same partition-by group" is 2. -/
theorem denseRank_literal_claim_refuted :
    sortedInput rankDenseCfg rankDenseCexRows ∧
    (pExecuteOutput rankDenseCfg rankDenseCexRows)[1]? = some ((0, 1), [1, 1]) ∧
    denseRankClaimedValue rankDenseCfg (rankDenseCexRows.take 1) (0, 1) = 2 ∧
    (pExecuteOutput rankDenseCfg rankDenseCexRows)[1]? ≠
      some ((0, 1), [rankClaimedValue rankDenseCfg (rankDenseCexRows.take 1) (0, 1),
        denseRankClaimedValue rankDenseCfg (rankDenseCexRows.take 1) (0, 1)]) := by
  refine ⟨by decide, by decide, by decide, by decide⟩

/-- C2 (amended): for every input table sorted by (partition-by key,
order-by key) processed with a single `COUNT` aggregate (`COUNT(*)`
when the argument expression list is empty, `COUNT(E)` otherwise), the
value emitted for the row at position `i` equals the number of counted
rows (all rows for `COUNT(*)`, rows with non-null first argument for
`COUNT(E)`) in the row's partition whose order-by key is at most the
row's own — i.e. the partition's rows through the end of the row's
order-by peer group.  The value is therefore constant within each
order-by peer group, and equals the claimed whole-partition count
exactly when each partition is a single peer group; the whole-partition
reading is refuted by `count_partitionSize_claim_refuted`. -/
theorem count_running_value {ρ K₁ K₂ : Type} [Inhabited ρ] [LinearOrder K₁] [LinearOrder K₂]
    (cfg : WFConfig ρ K₁ K₂) (es : List (ρ → Option Int)) (rows : List ρ)
    (haggs : cfg.aggs = [⟨.count, es⟩])
    (hs : sortedInput cfg rows) (i : Nat) (hi : i < rows.length) :
    (pExecuteOutput cfg rows)[i]? =
      some (rows[i], [countAmendedValue cfg ⟨.count, es⟩ rows rows[i]]) := by
  rw [pExecute_sorted cfg rows hs, specOutput_getElem cfg rows rows [] i hi]
  simp [haggs, aggAmendedValue]

/-- Witness for C2 at the spec's S5 scenario shape: on
`[(0,5),(0,5),(0,5),(1,7)]` the `COUNT(*)` value at position 0 is 3 —
the partition size, as each partition is a single peer group. -/
theorem count_running_value_witness :
    sortedInput countCfg countRows ∧
    (pExecuteOutput countCfg countRows)[0]? = some ((0, 5), [3]) := by
  constructor
  · decide
  · rw [count_running_value countCfg [] countRows rfl (by decide) 0 (by decide)]
    decide

/-- Counterexample to C2 as literally stated: on the sorted
one-partition input `[(0,1),(0,2)]` the executor emits `COUNT(*)` value
1 for the first row, but the number of rows in its partition is 2. -/
theorem count_partitionSize_claim_refuted :
    sortedInput countCfg countCexRows ∧
    (pExecuteOutput countCfg countCexRows)[0]? = some ((0, 1), [1]) ∧
    countClaimedValue countCfg ⟨.count, []⟩ countCexRows (0, 1) = 2 ∧
    (pExecuteOutput countCfg countCexRows)[0]? ≠
      some ((0, 1), [countClaimedValue countCfg ⟨.count, []⟩ countCexRows (0, 1)]) := by
  refine ⟨by decide, by decide, by decide, by decide⟩

/-- C4: over every run of `p_execute`, the sum of the group sizes
measured at the edges visited by the main loop equals the number of
rows of the input table, and exactly one output row is inserted per
input row. -/
theorem groupSize_accounting {ρ K₁ K₂ : Type} [Inhabited ρ] [DecidableEq K₁] [DecidableEq K₂]
    (cfg : WFConfig ρ K₁ K₂) (rows : List ρ) :
    ((pExecuteModel cfg rows).2.groupSizes).sum = rows.length ∧
    (pExecuteOutput cfg rows).length = rows.length := by
  cases rows with
  | nil => exact ⟨rfl, rfl⟩
  | cons b rest =>
    obtain ⟨h1, h2⟩ := loopAccounting cfg ((b :: rest).length + 1) b rest .StartOfInput
      (initialExecState cfg (b :: rest) default) (by simp) (Or.inl ⟨rfl, rfl⟩) rfl
    rw [pExecuteOutput, pExecuteModel]
    constructor
    · simpa [initialExecState] using h2
    · simpa [initialExecState] using h1

/-- C9: on an empty input table `p_execute` inserts no output rows and
returns true; the first `findNextEdge` call under `StartOfInput` sets
the group size to 0 and returns `EndOfInput`. -/
theorem windowFunction_empty_input {ρ K₁ K₂ : Type} [Inhabited ρ] [DecidableEq K₁]
    [DecidableEq K₂] (cfg : WFConfig ρ K₁ K₂) (buf : ρ) (states : List AggState) :
    (pExecuteModel cfg ([] : List ρ)).1 = true ∧
    pExecuteOutput cfg ([] : List ρ) = [] ∧
    findNextEdge cfg .StartOfInput [] buf states = ⟨.EndOfInput, [], buf, 0, states⟩ :=
  ⟨rfl, rfl, findNextEdge_start_nil cfg buf states⟩

/-! ## Claim theorem: scratch tuple and pool lifecycle (C3) -/

/-- C3 (code bug): the claim says the four scratch key tuples and the
buffered input tuple are null and the pool purged after `p_execute`
finishes whether it returns normally or throws.  The normal path does
exactly that (first conjunct: `p_execute_finish` runs).  But a run that
throws after `initWorkingTupleStorage` — here an unknown aggregate type
reaching `getWindowedAggInstance` — propagates the exception without
ever reaching `p_execute_finish`, leaving all five scratch tuples
non-null and the pool unpurged (second conjunct), which also violates
the null-tuple assertions the next run's `initWorkingTupleStorage`
makes. -/
theorem pExecute_cleanup_only_on_normal_exit :
    (∀ s : ScratchState,
      pExecuteScratch [.windowedRank, .windowedCount] s
        = .ok (true, ⟨false, false, false, false, false, true⟩)) ∧
    (∀ s : ScratchState,
      pExecuteScratch [.other 99] s
        = .error ("Unknown aggregate type", ⟨true, true, true, true, true, false⟩)) :=
  ⟨fun s => rfl, fun s => rfl⟩

/-! ## Claim theorems: dispatcher (C5, C10) -/

theorem runList_own : ∀ (units : List ExecUnit) (st : DispatchState), st.binding = .own →
    (∀ st2, runList st units = .ok st2 →
      st2.sitesPerHost = st.sitesPerHost ∧ st2.binding = .own) ∧
    (∀ st2 nrl, runList st units = .error (st2, nrl) →
      st2.sitesPerHost = st.sitesPerHost ∧ (nrl = false → st2.binding = .own)) := by
  intro units
  induction units with
  | nil =>
    intro st hb
    constructor
    · intro st2 h
      simp only [runList] at h
      cases h
      exact ⟨rfl, hb⟩
    · intro st2 nrl h
      simp only [runList] at h
      exact absurd h (by simp)
  | cons u rest ih =>
    intro st hb
    constructor
    · intro st2 h
      simp only [runList] at h
      by_cases hrep : u.isReplicatedTableInsert = true <;>
        simp only [hrep, Bool.false_eq_true, if_true, if_false,
          Bool.not_eq_true] at h
      · by_cases hdr : u.becomesDriver = true <;>
          simp only [hdr, Bool.false_eq_true, if_true, if_false] at h
        · by_cases hex : u.execOk = true <;>
            simp only [hex, Bool.false_eq_true, if_true, if_false] at h
          · exact (ih (DispatchState.mk st.sitesPerHost st.sitesPerHost .own (st.signalCount + 1)) rfl).1 st2 h
          · exact absurd h (by simp)
        · exact (ih (DispatchState.mk (st.latch - 1) st.sitesPerHost st.binding st.signalCount) hb).1 st2 h
      · by_cases hex : u.execOk = true <;>
          simp only [hex, Bool.false_eq_true, if_true, if_false] at h
        · exact (ih st hb).1 st2 h
        · exact absurd h (by simp)
    · intro st2 nrl h
      simp only [runList] at h
      by_cases hrep : u.isReplicatedTableInsert = true <;>
        simp only [hrep, Bool.false_eq_true, if_true, if_false] at h
      · by_cases hdr : u.becomesDriver = true <;>
          simp only [hdr, Bool.false_eq_true, if_true, if_false] at h
        · by_cases hex : u.execOk = true <;>
            simp only [hex, Bool.false_eq_true, if_true, if_false] at h
          · exact (ih (DispatchState.mk st.sitesPerHost st.sitesPerHost .own (st.signalCount + 1)) rfl).2 st2 nrl h
          · injection h with hpair
            obtain ⟨h1, h2⟩ := Prod.mk.inj hpair
            rw [← h1, ← h2]
            exact ⟨rfl, by simp⟩
        · exact (ih (DispatchState.mk (st.latch - 1) st.sitesPerHost st.binding st.signalCount) hb).2 st2 nrl h
      · by_cases hex : u.execOk = true <;>
          simp only [hex, Bool.false_eq_true, if_true, if_false] at h
        · exact (ih st hb).2 st2 nrl h
        · injection h with hpair
          obtain ⟨h1, h2⟩ := Prod.mk.inj hpair
          rw [← h1, ← h2]
          exact ⟨rfl, fun _ => hb⟩

/-- C5: if any executor run by `ExecutorContext::executeExecutors`
fails, then before the exception reaches the caller (the `.error`
result): every executor's temp output table has been released and every
inline child's memory pool cleaned; the site ends bound to its own
thread locals; and if the failing site still held the replicated-write
driver lock, the countdown latch has been reset to `SITES_PER_HOST`
and the last-site-finished signal raised. -/
theorem executeExecutors_failure_cleanup (st : DispatchState) (units : List ExecUnit)
    (st' : DispatchState) (units' : List ExecUnit)
    (hbind : st.binding = .own)
    (h : executeExecutorsModel st units = .error (st', units')) :
    (∀ u ∈ units', u.tempTableLive = false) ∧
    (∀ u ∈ units', ∀ p ∈ u.inlinePools, p = false) ∧
    st'.binding = .own ∧
    (∀ stT nrl, runList st units = .error (stT, nrl) → nrl = true →
      st'.latch = st.sitesPerHost ∧ st'.signalCount = stT.signalCount + 1) := by
  unfold executeExecutorsModel at h
  cases hr : runList st units with
  | ok st2 =>
    rw [hr] at h
    exact absurd h (by simp)
  | error e =>
    obtain ⟨stT, nrl⟩ := e
    rw [hr] at h
    simp only [] at h
    injection h with hpair
    obtain ⟨hst, hun⟩ := Prod.mk.inj hpair
    refine ⟨?_, ?_, ?_, ?_⟩
    · intro u hu
      rw [← hun] at hu
      simp only [cleanupInlinePools, cleanupAllExecutorsM, List.map_map, List.mem_map] at hu
      obtain ⟨u0, _, hu0⟩ := hu
      rw [← hu0]
      rfl
    · intro u hu p hp
      rw [← hun] at hu
      simp only [cleanupInlinePools, cleanupAllExecutorsM, List.map_map, List.mem_map] at hu
      obtain ⟨u0, _, hu0⟩ := hu
      rw [← hu0] at hp
      simp only [List.mem_map, Function.comp] at hp
      obtain ⟨_, _, hp0⟩ := hp
      exact hp0.symm
    · rw [← hst]
      cases hnrl : nrl with
      | true => simp
      | false =>
        rw [hnrl] at hr
        simp only [Bool.false_eq_true, if_false]
        exact ((runList_own units st hbind).2 stT false hr).2 rfl
    · intro stT' nrl' hr' htrue
      injection hr' with hpair'
      obtain ⟨h1, h2⟩ := Prod.mk.inj hpair'
      subst h1
      have hnrl : nrl = true := h2.trans htrue
      subst hnrl
      rw [← hst]
      have hsites := ((runList_own units st hbind).2 stT true hr).1
      exact ⟨hsites, rfl⟩

/-- C10: `executeExecutors` returns the output table of
`executorList[ttl-1]` unconditionally: on success the returned table is
the last executor's output, and for an empty list the index falls
outside the list (there is no guarded error path — the model's partial
lookup yields `none`), so a non-empty list is a precondition. -/
theorem executeExecutors_last_output :
    (∀ st : DispatchState, executeExecutorsModel st [] = .ok (st, [], none)) ∧
    (∀ (st : DispatchState) (units : List ExecUnit) (st' : DispatchState)
        (us : List ExecUnit) (tbl : Option ExecUnit),
      executeExecutorsModel st units = .ok (st', us, tbl) → tbl = units.getLast?) := by
  constructor
  · intro st
    rfl
  · intro st units st' us tbl h
    unfold executeExecutorsModel at h
    cases hr : runList st units with
    | ok st2 =>
      rw [hr] at h
      injection h with hpair
      have htbl : units.get? (units.length - 1) = tbl :=
        (Prod.mk.inj (Prod.mk.inj hpair).2).2
      rw [← htbl, List.get?_eq_getElem?, List.getLast?_eq_getElem?]
    | error e =>
      obtain ⟨stT, nrl⟩ := e
      rw [hr] at h
      exact absurd h (by simp)

/-- Witness for C5: a two-executor list whose second executor is a
failing replicated-insert driver, starting from a 4-site host state. -/
theorem executeExecutors_failure_cleanup_witness :
    (∀ u ∈ cleanupInlinePools (cleanupAllExecutorsM failingDriverUnits),
      u.tempTableLive = false) ∧
    (∀ u ∈ cleanupInlinePools (cleanupAllExecutorsM failingDriverUnits),
      ∀ p ∈ u.inlinePools, p = false) ∧
    (⟨4, 4, Binding.own, 1⟩ : DispatchState).binding = .own ∧
    (∀ stT nrl, runList dispatchStart failingDriverUnits = .error (stT, nrl) → nrl = true →
      (⟨4, 4, Binding.own, 1⟩ : DispatchState).latch = dispatchStart.sitesPerHost ∧
      (⟨4, 4, Binding.own, 1⟩ : DispatchState).signalCount = stT.signalCount + 1) :=
  executeExecutors_failure_cleanup dispatchStart failingDriverUnits
    ⟨4, 4, Binding.own, 1⟩ (cleanupInlinePools (cleanupAllExecutorsM failingDriverUnits))
    rfl rfl

/-- Witness for C10: a singleton executor list succeeds and the
returned table is its last (only) element's output. -/
theorem executeExecutors_last_output_witness :
    some singleOkUnit = [singleOkUnit].getLast? :=
  executeExecutors_last_output.2 dispatchStart [singleOkUnit] dispatchStart [singleOkUnit]
    (some singleOkUnit) rfl

/-! ## Claim theorem: DR stream rotation (C6) -/

/-- C6: under the asserted precondition that the old stream's committed
sequence number is at least the new stream's,
`ExecutorContext::setDrStream(new)` first flushes the old stream up to
`max(m_lastCommittedSpHandle, new.m_openSpHandle)`, then installs the
new stream with its committed sequence number set to the old stream's
pre-rotation value — so the installed stream's committed sequence
number has not decreased. -/
theorem setDrStream_rotation (ctx : DrCtxState) (newStream : DRStream)
    (h : newStream.committedSequenceNumber ≤ ctx.drStream.committedSequenceNumber) :
    (setDrStream ctx newStream).drStream.committedSequenceNumber
        = ctx.drStream.committedSequenceNumber ∧
    (setDrStream ctx newStream).drStream.openSpHandle = newStream.openSpHandle ∧
    (setDrStream ctx newStream).flushes
        = ctx.flushes
          ++ [(ctx.drStream, -1, max ctx.lastCommittedSpHandle newStream.openSpHandle)] ∧
    newStream.committedSequenceNumber
        ≤ (setDrStream ctx newStream).drStream.committedSequenceNumber :=
  ⟨rfl, rfl, rfl, h⟩

/-- Witness for C6: rotating from a stream with committed sequence
number 7 to one with 5 and open sp-handle 12, with
`lastCommittedSpHandle` 10. -/
theorem setDrStream_rotation_witness :
    (setDrStream ⟨⟨7, 2⟩, 10, []⟩ ⟨5, 12⟩).drStream.committedSequenceNumber = 7 ∧
    (setDrStream ⟨⟨7, 2⟩, 10, []⟩ ⟨5, 12⟩).flushes = [(⟨7, 2⟩, -1, 12)] := by
  have h := setDrStream_rotation ⟨⟨7, 2⟩, 10, []⟩ ⟨5, 12⟩ (by decide)
  refine ⟨h.1, ?_⟩
  rw [h.2.2.1]
  decide

/-! ## Claim theorem: swap-tables executor (C7) -/

/-- C7: `SwapTablesExecutor::p_execute` computes the sum of the two
targets' visible tuple counts before the swap, exchanges the two table
bodies once, emits exactly one output row holding that pre-swap sum,
and reports the same sum to the engine's modified-tuple tally. -/
theorem swapTables_dml_count (t1 t2 : PersistentTableM) :
    (swapTablesExecute t1 t2).outputRows
        = [t1.visibleTupleCount + t2.visibleTupleCount] ∧
    (swapTablesExecute t1 t2).tuplesModifiedDelta
        = t1.visibleTupleCount + t2.visibleTupleCount ∧
    (swapTablesExecute t1 t2).table1 = t2 ∧
    (swapTablesExecute t1 t2).table2 = t1 :=
  ⟨rfl, rfl, rfl, rfl⟩

/-! ## Claim theorem: projection executor (C8) -/

theorem convertTuple_sound {V : Type} [Inhabited V] :
    ∀ (exprs : List (PExpr V)) (cols : List Nat),
      convertIfAllTupleValues exprs = some cols →
      ∀ (tuple params : List V),
        cols.map (fun c => tuple.getD c default)
          = exprs.map (fun e => evalPExpr e tuple params) := by
  intro exprs
  induction exprs with
  | nil =>
    intro cols h tuple params
    simp only [convertIfAllTupleValues, Option.some.injEq] at h
    subst h
    rfl
  | cons e exprs ih =>
    intro cols h tuple params
    cases e with
    | tupleValue c =>
      simp only [convertIfAllTupleValues] at h
      cases hr : convertIfAllTupleValues exprs with
      | none =>
        rw [hr] at h
        simp at h
      | some cols' =>
        rw [hr] at h
        simp at h
        subst h
        simp only [List.map_cons]
        rw [ih cols' hr tuple params]
        rfl
    | paramValue i => simp [convertIfAllTupleValues] at h
    | general f => simp [convertIfAllTupleValues] at h

theorem convertParam_sound {V : Type} [Inhabited V] :
    ∀ (exprs : List (PExpr V)) (idxs : List Nat),
      convertIfAllParameterValues exprs = some idxs →
      ∀ (tuple params : List V),
        idxs.map (fun i => params.getD i default)
          = exprs.map (fun e => evalPExpr e tuple params) := by
  intro exprs
  induction exprs with
  | nil =>
    intro idxs h tuple params
    simp only [convertIfAllParameterValues, Option.some.injEq] at h
    subst h
    rfl
  | cons e exprs ih =>
    intro idxs h tuple params
    cases e with
    | paramValue i =>
      simp only [convertIfAllParameterValues] at h
      cases hr : convertIfAllParameterValues exprs with
      | none =>
        rw [hr] at h
        simp at h
      | some idxs' =>
        rw [hr] at h
        simp at h
        subst h
        simp only [List.map_cons]
        rw [ih idxs' hr tuple params]
        rfl
    | tupleValue c => simp [convertIfAllParameterValues] at h
    | general f => simp [convertIfAllParameterValues] at h

/-- C8: `ProjectionExecutor::p_execute` inserts exactly one output row
per input row, and its three code paths agree: whether the output
columns are filled by fast path A (all bare input-column references),
fast path B (all bare parameter references) or full expression
evaluation, output column `i` of every row equals output expression `i`
evaluated against the input row and the parameter array. -/
theorem projection_paths_agree {V : Type} [Inhabited V] (exprs : List (PExpr V))
    (params : List V) (input : List (List V)) :
    projectionExecute exprs params input
      = input.map (fun tuple => exprs.map (fun e => evalPExpr e tuple params)) ∧
    (projectionExecute exprs params input).length = input.length := by
  have hmain : projectionExecute exprs params input
      = input.map (fun tuple => exprs.map (fun e => evalPExpr e tuple params)) := by
    simp only [projectionExecute]
    cases hA : convertIfAllTupleValues exprs with
    | some cols =>
      congr 1
      funext tuple
      exact convertTuple_sound exprs cols hA tuple params
    | none =>
      cases hB : convertIfAllParameterValues exprs with
      | some idxs =>
        congr 1
        funext tuple
        exact convertParam_sound exprs idxs hB tuple params
      | none => rfl
  exact ⟨hmain, by rw [hmain]; simp⟩

end VoltVerify
